import Mathlib

/-!
# Cooperative user-level threads (user/uthread.c)

A shallow embedding of the thread table and of the operations of
`user/uthread.c`, followed by theorems about them.

* The table `threads[MAX_UTHREADS]` is a list of slots; `MAX_UTHREADS` and
  `STACK_SIZE` come from the header `uthread.h` and are parameters here.
* A pointer to a slot (`current_thread`, `next_thread`) is `Option Nat`:
  `none` is the null pointer and `some i` points to `threads[i]`.
  Dereferencing a pointer that does not designate a slot of the table has no
  defined result, so the operations that dereference return an `Option`.
* The `while` loop of `uthread_yield` has no bound in the source; it is
  embedded with a fuel argument that bounds the number of evaluations of the
  loop condition.
-/

namespace Uthread

/-! ## Data model -/

/-- Modelled from the spec: the slot states declared in the header uthread.h
(section 3: one of FREE, RUNNABLE, RUNNING). -/
inductive tstate where
  | FREE
  | RUNNING
  | RUNNABLE
  deriving DecidableEq, Repr

/-- Modelled from the spec: the priority levels declared in the header
uthread.h (section 3: a small ordered enumeration LOW, MEDIUM, HIGH). -/
inductive sched_priority where
  | LOW
  | MEDIUM
  | HIGH
  deriving DecidableEq, Repr

/-- Modelled from the spec: the saved register record declared in the header
uthread.h (section 2: return address, stack pointer and the callee-saved
registers). The library code reads and writes only `ra` and `sp`. -/
structure context where
  ra : Nat
  sp : Nat
  callee_saved : List Nat
  deriving DecidableEq, Repr

/-- Modelled from the spec: one slot of the table, `struct uthread` of the
header uthread.h (section 3). The field `ustack` holds the base address of the
stack array of the slot, which is what the expression `uthread->ustack`
evaluates to; the bytes of the stack are never read or written by the library
code and are not represented. -/
structure uthread where
  ustack : Nat
  state : tstate
  context : context
  priority : sched_priority
  next_thread : Option Nat
  deriving DecidableEq, Repr

/-- The two globals of uthread.c: the table and the current-thread pointer. -/
structure State where
  threads : List uthread
  current_thread : Option Nat
  deriving DecidableEq, Repr

/-- Assignment to fields of `threads[i]`: the slot at index `i` is replaced by
`f` of it, every other slot is kept. -/
def set_slot : List uthread → Nat → (uthread → uthread) → List uthread
  | [], _, _ => []
  | t :: ts, 0, f => f t :: ts
  | t :: ts, i + 1, f => t :: set_slot ts i f

/-! ## init_uthreads -/

/-- Body of the `for` loop of `init_uthreads` at index `i`:
`threads[i].state = FREE; threads[i].next_thread = &threads[(i + 1) % MAX_UTHREADS]`. -/
def init_body (MAX_UTHREADS : Nat) (ts : List uthread) (i : Nat) : List uthread :=
  set_slot ts i (fun t =>
    { t with state := tstate.FREE, next_thread := some ((i + 1) % MAX_UTHREADS) })

/-- Embedding of `init_uthreads`: the loop over `i = 0 .. MAX_UTHREADS - 1`,
then `current_thread = 0`. -/
def init_uthreads (MAX_UTHREADS : Nat) (s : State) : State :=
  { threads := (List.range MAX_UTHREADS).foldl (init_body MAX_UTHREADS) s.threads,
    current_thread := none }

/-! ## uthread_create -/

/-- The four assignments `uthread_create` makes to the slot it has found:
priority, `context.ra`, `context.sp` (an addition of `uint64` values, hence
modulo `2 ^ 64`) and state. -/
def create_fill (STACK_SIZE : Nat) (start_func : Nat) (priority : sched_priority)
    (t : uthread) : uthread :=
  { t with
    priority := priority,
    context := { t.context with ra := start_func, sp := (t.ustack + STACK_SIZE) % 2 ^ 64 },
    state := tstate.RUNNABLE }

/-- The `for` loop of `uthread_create`, with `k` slots left to visit starting
at index `i`: the first FREE slot met is filled and 0 is returned; when the end
of the table is reached -1 is returned. -/
def create_loop (STACK_SIZE : Nat) (start_func : Nat) (priority : sched_priority) :
    Nat → Nat → List uthread → List uthread × Int
  | 0, _, ts => (ts, -1)
  | k + 1, i, ts =>
    match ts[i]? with
    | none => (ts, -1)
    | some t =>
      if t.state = tstate.FREE then
        (set_slot ts i (create_fill STACK_SIZE start_func priority), 0)
      else
        create_loop STACK_SIZE start_func priority k (i + 1) ts

/-- Embedding of `uthread_create`: the new state and the returned `int`. -/
def uthread_create (MAX_UTHREADS STACK_SIZE : Nat) (start_func : Nat)
    (priority : sched_priority) (s : State) : State × Int :=
  let r := create_loop STACK_SIZE start_func priority MAX_UTHREADS 0 s.threads
  ({ s with threads := r.1 }, r.2)

/-! ## uthread_self, uthread_yield -/

/-- Embedding of `uthread_self`: the current-thread pointer. -/
def uthread_self (s : State) : Option Nat :=
  s.current_thread

/-- The `while` loop of `uthread_yield`. `next_thread` is the pointer held by
the local variable, `steps` counts the executions of
`next_thread = next_thread->next_thread` so far. The result is the slot at
which the loop stops together with the number of successor steps taken;
`none` when the fuel runs out or the pointer designates no slot. -/
def yield_loop (ts : List uthread) : Nat → Option Nat → Nat → Option (Nat × Nat)
  | 0, _, _ => none
  | fuel + 1, next_thread, steps =>
    match next_thread with
    | none => none
    | some p =>
      match ts[p]? with
      | none => none
      | some t =>
        if t.state ≠ tstate.RUNNABLE then
          yield_loop ts fuel t.next_thread (steps + 1)
        else
          some (p, steps)

/-- The call `uswtch(old_context, &current_thread->context)` made by
`uthread_yield`, each argument given by the slot whose context it points to. -/
structure swap_call where
  old_context : Nat
  new_context : Nat
  deriving DecidableEq, Repr

/-- Embedding of `uthread_yield` up to and including the call of `uswtch`:
the state of the globals at the call, and the call itself. -/
def uthread_yield (fuel : Nat) (s : State) : Option (State × swap_call) :=
  match uthread_self s with
  | none => none
  | some c =>
    match s.threads[c]? with
    | none => none
    | some current =>
      let ts := set_slot s.threads c (fun t => { t with state := tstate.RUNNABLE })
      match yield_loop ts fuel current.next_thread 0 with
      | none => none
      | some (n, _) =>
        some ({ threads := ts, current_thread := some n },
              { old_context := c, new_context := n })

/-- Modelled from the spec: the external context swap (section 6),
`uswtch(save_into, restore_from)`. It stores the registers of the calling
execution, `live`, into the context of the slot `old_context`; control then
continues at the resume point held by the context of the slot `new_context`. -/
def uswtch (live : context) (call : swap_call) (s : State) : State :=
  { s with threads := set_slot s.threads call.old_context (fun t => { t with context := live }) }

/-! ## uthread_exit -/

/-- How a call of `uthread_exit` ends for the calling thread: it returns to its
caller, or it has called `exit(status)`. -/
inductive exit_outcome where
  | returned
  | exited (status : Int)
  deriving DecidableEq, Repr

/-- The scan loop of `uthread_exit`: `flag` starts at 0 and is set to 1 at each
index `i < MAX_UTHREADS` whose slot is not FREE. -/
def exit_flag (MAX_UTHREADS : Nat) (ts : List uthread) : Nat :=
  (List.range MAX_UTHREADS).foldl
    (fun flag i =>
      match ts[i]? with
      | none => flag
      | some t => if t.state ≠ tstate.FREE then 1 else flag)
    0

/-- The part of `uthread_exit` that follows the return of its call of
`uthread_yield`: `uthread_self()->state = FREE`, the scan, and `exit(0)` when
the flag is still 0. -/
def uthread_exit_resume (MAX_UTHREADS : Nat) (s : State) : Option (State × exit_outcome) :=
  match uthread_self s with
  | none => none
  | some c =>
    match s.threads[c]? with
    | none => none
    | some _ =>
      let s1 : State :=
        { s with threads := set_slot s.threads c (fun t => { t with state := tstate.FREE }) }
      if exit_flag MAX_UTHREADS s1.threads = 0 then
        some (s1, exit_outcome.exited 0)
      else
        some (s1, exit_outcome.returned)

/-- What a call of `uthread_exit` has done when control leaves the calling
thread or the call ends: `switched` when `uswtch` has passed control to another
slot (the rest of `uthread_exit` runs once the calling slot is restored), and
`finished` when the yield selected the calling slot itself, `uswtch` came back
at once and the rest of the function ran. -/
inductive exit_result where
  | switched (s : State) (call : swap_call)
  | finished (s : State) (o : exit_outcome)
  deriving DecidableEq, Repr

/-- Embedding of `uthread_exit`. `live` is the register file at the call of
`uswtch`. -/
def uthread_exit (MAX_UTHREADS fuel : Nat) (live : context) (s : State) : Option exit_result :=
  match uthread_yield fuel s with
  | none => none
  | some (s1, call) =>
    let s2 := uswtch live call s1
    if call.new_context = call.old_context then
      match uthread_exit_resume MAX_UTHREADS s2 with
      | none => none
      | some (s3, o) => some (exit_result.finished s3 o)
    else
      some (exit_result.switched s2 call)

/-! ## Priority accessors -/

/-- Embedding of `uthread_set_priority`: the new state and the returned
previous priority. -/
def uthread_set_priority (priority : sched_priority) (s : State) :
    Option (State × sched_priority) :=
  match uthread_self s with
  | none => none
  | some c =>
    match s.threads[c]? with
    | none => none
    | some t =>
      some ({ s with threads := set_slot s.threads c (fun u => { u with priority := priority }) },
            t.priority)

/-- Embedding of `uthread_get_priority`. -/
def uthread_get_priority (s : State) : Option sched_priority :=
  match uthread_self s with
  | none => none
  | some c =>
    match s.threads[c]? with
    | none => none
    | some t => some t.priority

/-! ## Threads taking turns

The operations above are called by the thread that holds the processor. A
thread that called `uthread_exit` and was switched out resumes inside
`uthread_exit` when its context is restored; `System` records which slots are
in that position, and the exit status of the process once `exit` was called. -/

/-- The globals, the slots whose saved context lies inside `uthread_exit`, and
the exit status of the process (`none` while it runs). -/
structure System where
  mem : State
  in_exit : List Nat
  status : Option Int
  deriving DecidableEq, Repr

/-- A library call made by the executing thread. `live` is the register file
at the call of `uswtch`. -/
inductive Op where
  | create (start_func : Nat) (priority : sched_priority)
  | yield (live : context)
  | exit (live : context)
  | set_priority (priority : sched_priority)
  deriving DecidableEq, Repr

/-- The exit status a finished call of `uthread_exit` leaves the process
with: `none` when the call returned and the process goes on. -/
def status_of : exit_outcome → Option Int
  | exit_outcome.returned => none
  | exit_outcome.exited st => some st

/-- Control arrives in the slot `call.new_context`. When the context of that
slot was saved inside `uthread_exit`, the rest of `uthread_exit` runs there. -/
def after_switch (MAX_UTHREADS : Nat) (sys : System) (call : swap_call) : Option System :=
  if call.new_context ∈ sys.in_exit then
    match uthread_exit_resume MAX_UTHREADS sys.mem with
    | none => none
    | some (m, o) =>
      some { mem := m,
             in_exit := sys.in_exit.filter (fun i => i ≠ call.new_context),
             status := status_of o }
  else
    some sys

/-- One library call by the executing thread, followed by whatever library
code runs in the thread that receives control. The yield loop is given
`MAX_UTHREADS` evaluations of its condition. A process that has exited makes
no further step. -/
def step (MAX_UTHREADS STACK_SIZE : Nat) (sys : System) (op : Op) : Option System :=
  if sys.status ≠ none then
    some sys
  else
    match op with
    | Op.create start_func priority =>
      some { sys with mem := (uthread_create MAX_UTHREADS STACK_SIZE start_func priority sys.mem).1 }
    | Op.yield live =>
      match uthread_yield MAX_UTHREADS sys.mem with
      | none => none
      | some (m, call) => after_switch MAX_UTHREADS { sys with mem := uswtch live call m } call
    | Op.exit live =>
      match uthread_exit MAX_UTHREADS MAX_UTHREADS live sys.mem with
      | none => none
      | some (exit_result.finished m o) => some { sys with mem := m, status := status_of o }
      | some (exit_result.switched m call) =>
        after_switch MAX_UTHREADS { sys with mem := m, in_exit := call.old_context :: sys.in_exit } call
    | Op.set_priority priority =>
      match uthread_set_priority priority sys.mem with
      | none => none
      | some (m, _) => some { sys with mem := m }

/-- A sequence of library calls, each made by the thread executing at that
point. -/
def run (MAX_UTHREADS STACK_SIZE : Nat) : System → List Op → Option System
  | sys, [] => some sys
  | sys, op :: ops =>
    match step MAX_UTHREADS STACK_SIZE sys op with
    | none => none
    | some sys1 => run MAX_UTHREADS STACK_SIZE sys1 ops

/-- The state in which slot `c` holds the processor: the current-thread
pointer designates it. -/
def started (c : Nat) (s : State) : State :=
  { s with current_thread := some c }

/-- A running process over the globals `s` in which no slot is suspended
inside `uthread_exit`. -/
def boot (s : State) : System :=
  { mem := s, in_exit := [], status := none }

/-- Consecutive calls of `uthread_create`, one per element of the list (start
function and priority), with the list of the values returned. -/
def create_all (MAX_UTHREADS STACK_SIZE : Nat) : List (Nat × sched_priority) → State → State × List Int
  | [], s => (s, [])
  | a :: rest, s =>
    let r := uthread_create MAX_UTHREADS STACK_SIZE a.1 a.2 s
    let q := create_all MAX_UTHREADS STACK_SIZE rest r.1
    (q.1, r.2 :: q.2)

/-- A slot as static storage holds it before `init_uthreads` runs: every
field zero (state FREE, priority LOW, null successor), its stack array at
address `ustack`. -/
def zeroed (ustack : Nat) : uthread :=
  { ustack := ustack,
    state := tstate.FREE,
    context := { ra := 0, sp := 0, callee_saved := [] },
    priority := sched_priority.LOW,
    next_thread := none }

/-- The globals at program start for a table of `n` slots whose stack arrays
lie at `base`, `base + stride`, `base + 2 * stride` and so on. -/
def zeroed_State (base stride n : Nat) : State :=
  { threads := (List.range n).map (fun i => zeroed (base + i * stride)),
    current_thread := none }

/-- A sample table of two slots: slot 0 created (RUNNABLE), slot 1 FREE. -/
def sample_one_of_two : State :=
  (uthread_create 2 4000 64 sched_priority.LOW (init_uthreads 2 (zeroed_State 8192 4096 2))).1

/-- The shape of the table while it is being filled from an initialised
table: the slots below `k` are RUNNABLE and the slots from `k` up to
`MAX_UTHREADS` are FREE. -/
def filled_upto (MAX_UTHREADS k : Nat) (ts : List uthread) : Prop :=
  (∀ i, i < k → ∃ t, ts[i]? = some t ∧ t.state = tstate.RUNNABLE) ∧
  (∀ i, k ≤ i → i < MAX_UTHREADS → ∃ t, ts[i]? = some t ∧ t.state = tstate.FREE)

/-- Sample arguments for two calls of `uthread_create`. -/
def sample_args : List (Nat × sched_priority) :=
  [(64, sched_priority.LOW), (128, sched_priority.HIGH)]

/-- The successor links as `init_uthreads` sets them: the successor of slot
`i` is slot `(i + 1) % MAX_UTHREADS`. -/
def ring_links (MAX_UTHREADS : Nat) (ts : List uthread) : Prop :=
  ∀ (i : Nat) (t : uthread), ts[i]? = some t → t.next_thread = some ((i + 1) % MAX_UTHREADS)

/-- Number of slots of the table whose state is RUNNING. -/
def running_count (s : State) : Nat :=
  s.threads.countP (fun t => decide (t.state = tstate.RUNNING))

/-- State of the slot the current-thread pointer designates, if any. -/
def current_state (s : State) : Option tstate :=
  match s.current_thread with
  | none => none
  | some c => (s.threads[c]?).map uthread.state

/-- A sample register file at a call of `uswtch`. -/
def sample_live : context :=
  { ra := 256, sp := 9000, callee_saved := [] }

/-- A table of four slots after `init_uthreads` and two calls of
`uthread_create`, with the first thread (slot 0) current. -/
def sample_two_of_four : State :=
  started 0
    (create_all 4 4000 sample_args (init_uthreads 4 (zeroed_State 8192 4096 4))).1

/-- A table of two slots after `init_uthreads` and two calls of
`uthread_create`, with the first thread (slot 0) current. -/
def sample_two_of_two : State :=
  started 0
    (create_all 2 4000 sample_args (init_uthreads 2 (zeroed_State 8192 4096 2))).1

/-! ## uthread_start_all -/

/-- What a call of `uthread_start_all` has done when it ends: the globals, the
slot whose context `uswtch` was asked to restore (`none` when `uswtch` was not
called), and the value returned (`none` when control reaches the end of the
function without a `return` statement). -/
structure start_all_result where
  globals : State
  restored : Option Nat
  value : Option Int
  deriving DecidableEq, Repr

/-- Embedding of `uthread_start_all`: the body of the function is empty, so
the globals are left as they are, `uswtch` is not called and no value is
returned. -/
def uthread_start_all (s : State) : start_all_result :=
  { globals := s, restored := none, value := none }

/-! ## Following the successor links -/

/-- The pointer reached from `p` by `k` times `p = p->next_thread`; `none`
when a pointer on the way designates no slot. -/
def follow (ts : List uthread) : Nat → Option Nat → Option Nat
  | 0, p => p
  | k + 1, p =>
    match p with
    | none => none
    | some i =>
      match ts[i]? with
      | none => none
      | some t => follow ts k t.next_thread

/-- The successor links of the table, slot by slot. -/
def links (ts : List uthread) : List (Option Nat) :=
  ts.map uthread.next_thread

/-- The field updates the library makes to a slot never change its successor
link and never make it RUNNING. -/
def library_update (f : uthread → uthread) : Prop :=
  ∀ t : uthread, (f t).next_thread = t.next_thread ∧
    (t.state ≠ tstate.RUNNING → (f t).state ≠ tstate.RUNNING)

/-- No slot of the table is RUNNING. -/
def no_running (ts : List uthread) : Prop :=
  ∀ t ∈ ts, t.state ≠ tstate.RUNNING

/-- Sample calls: two creations, then an exit and two yields by whichever
thread is executing. -/
def sample_ops : List Op :=
  [Op.create 64 sched_priority.LOW, Op.create 128 sched_priority.HIGH,
   Op.exit sample_live, Op.yield sample_live, Op.yield sample_live]

/-- What the search of `uthread_yield` reads of a slot: its state and its
successor link. -/
def sched_view (t : uthread) : tstate × Option Nat :=
  (t.state, t.next_thread)

/-- The table of `sample_two_of_four` with the priorities of the two threads
exchanged. -/
def sample_two_of_four_swapped : State :=
  started 0
    (create_all 4 4000 [(64, sched_priority.HIGH), (128, sched_priority.LOW)]
      (init_uthreads 4 (zeroed_State 8192 4096 4))).1

/-! ## Runs of yields -/

/-- Whether slot `i` of the table is RUNNABLE. -/
def is_runnable (ts : List uthread) (i : Nat) : Bool :=
  match ts[i]? with
  | none => false
  | some t => decide (t.state = tstate.RUNNABLE)

/-- The `D` slots that follow slot `c` on the ring, in ring order:
`(c + 1) % MAX_UTHREADS`, `(c + 2) % MAX_UTHREADS`, and so on. -/
def ring_window (MAX_UTHREADS c D : Nat) : List Nat :=
  (List.range D).map (fun d => (c + 1 + d) % MAX_UTHREADS)

/-- The RUNNABLE slots among the `D` slots that follow slot `c`, in ring
order. -/
def runnable_window (MAX_UTHREADS : Nat) (ts : List uthread) (c D : Nat) : List Nat :=
  (ring_window MAX_UTHREADS c D).filter (is_runnable ts)

/-- The RUNNABLE slots in ring order starting after slot `c` and ending with
`c` itself: one full turn of the ring. -/
def runnable_after (MAX_UTHREADS : Nat) (ts : List uthread) (c : Nat) : List Nat :=
  runnable_window MAX_UTHREADS ts c MAX_UTHREADS

/-- The RUNNABLE slots of the table, in table order. -/
def runnable_slots (MAX_UTHREADS : Nat) (ts : List uthread) : List Nat :=
  (List.range MAX_UTHREADS).filter (is_runnable ts)

/-- Consecutive calls of `uthread_yield`, each made by the thread the previous
one selected, one per element of `lives` (the register file saved by `uswtch`
at that call): the final state and the list of the slots selected. -/
def yield_trace (fuel : Nat) : List context → State → Option (State × List Nat)
  | [], s => some (s, [])
  | live :: rest, s =>
    match uthread_yield fuel s with
    | none => none
    | some (s1, call) =>
      match yield_trace fuel rest (uswtch live call s1) with
      | none => none
      | some (s2, selected) => some (s2, call.new_context :: selected)

/-- The current-thread pointer designates a slot of the table. -/
def current_in_table (s : State) : Prop :=
  ∃ c : Nat, s.current_thread = some c ∧ c < s.threads.length

/-- Sample calls made after a first yield: an exit, then two yields, by
whichever thread is executing. -/
def sample_later_ops : List Op :=
  [Op.exit sample_live, Op.yield sample_live, Op.yield sample_live]

/-- Sample calls made before a first yield: two creations. -/
def sample_create_ops : List Op :=
  [Op.create 64 sched_priority.LOW, Op.create 128 sched_priority.HIGH]

/-! ## Slot assignment -/

theorem set_slot_length (ts : List uthread) (i : Nat) (f : uthread → uthread) :
    (set_slot ts i f).length = ts.length := by
  induction ts generalizing i with
  | nil => rfl
  | cons t ts ih =>
    cases i with
    | zero => rfl
    | succ i => simp [set_slot, ih]

theorem set_slot_get_same (ts : List uthread) (i : Nat) (f : uthread → uthread) :
    (set_slot ts i f)[i]? = (ts[i]?).map f := by
  induction ts generalizing i with
  | nil => simp [set_slot]
  | cons t ts ih =>
    cases i with
    | zero => simp [set_slot]
    | succ i => simp [set_slot, ih]

theorem set_slot_get_other (ts : List uthread) (i j : Nat) (f : uthread → uthread)
    (h : j ≠ i) : (set_slot ts i f)[j]? = ts[j]? := by
  induction ts generalizing i j with
  | nil => simp [set_slot]
  | cons t ts ih =>
    cases i with
    | zero =>
      cases j with
      | zero => exact absurd rfl h
      | succ j => simp [set_slot]
    | succ i =>
      cases j with
      | zero => simp [set_slot]
      | succ j =>
        have hji : j ≠ i := fun e => h (by rw [e])
        simp [set_slot, ih i j hji]

theorem slot_of_lt (ts : List uthread) (i : Nat) (h : i < ts.length) :
    ∃ t, ts[i]? = some t :=
  ⟨ts[i], List.getElem?_eq_getElem h⟩

theorem lt_of_slot (ts : List uthread) (i : Nat) (t : uthread) (h : ts[i]? = some t) :
    i < ts.length := by
  by_contra hn
  have : ts[i]? = none := List.getElem?_eq_none (Nat.le_of_not_lt hn)
  rw [this] at h
  exact Option.noConfusion h

theorem lt_of_slot_args (args : List (Nat × sched_priority)) (k : Nat)
    (a : Nat × sched_priority) (h : args[k]? = some a) : k < args.length := by
  by_contra hn
  have : args[k]? = none := List.getElem?_eq_none (Nat.le_of_not_lt hn)
  rw [this] at h
  exact Option.noConfusion h

/-! ## uthread_create -/

theorem create_loop_found (STACK_SIZE start_func : Nat) (priority : sched_priority)
    (ts : List uthread) (i : Nat) (t : uthread)
    (hi : ts[i]? = some t) (hfree : t.state = tstate.FREE) :
    ∀ k i0, i0 ≤ i → i < i0 + k →
      (∀ j u, i0 ≤ j → j < i → ts[j]? = some u → u.state ≠ tstate.FREE) →
      create_loop STACK_SIZE start_func priority k i0 ts
        = (set_slot ts i (create_fill STACK_SIZE start_func priority), 0) := by
  intro k
  induction k with
  | zero => intro i0 h1 h2 _; omega
  | succ k ih =>
    intro i0 h1 h2 hbefore
    by_cases he : i0 = i
    · subst he
      simp [create_loop, hi, hfree]
    · have hlt : i0 < i := by omega
      obtain ⟨u, hu⟩ := slot_of_lt ts i0 (by have := lt_of_slot ts i t hi; omega)
      have hnf : u.state ≠ tstate.FREE := hbefore i0 u (Nat.le_refl _) hlt hu
      have hrec := ih (i0 + 1) (by omega) (by omega)
        (fun j v hj1 hj2 hv => hbefore j v (by omega) hj2 hv)
      simp [create_loop, hu, hnf, hrec]

theorem create_loop_full (STACK_SIZE start_func : Nat) (priority : sched_priority)
    (ts : List uthread) :
    ∀ k i0, (∀ j u, i0 ≤ j → j < i0 + k → ts[j]? = some u → u.state ≠ tstate.FREE) →
      create_loop STACK_SIZE start_func priority k i0 ts = (ts, -1) := by
  intro k
  induction k with
  | zero => intro i0 _; rfl
  | succ k ih =>
    intro i0 hall
    cases hu : ts[i0]? with
    | none => simp [create_loop, hu]
    | some u =>
      have hnf : u.state ≠ tstate.FREE := hall i0 u (Nat.le_refl _) (by omega) hu
      have hrec := ih (i0 + 1) (fun j v hj1 hj2 hv => hall j v (by omega) (by omega) hv)
      simp [create_loop, hu, hnf, hrec]

/-- Among the slots below `n`, a FREE one with the lowest index exists as soon
as any FREE one exists. -/
theorem first_free_exists (ts : List uthread) (n : Nat)
    (h : ∃ i t, i < n ∧ ts[i]? = some t ∧ t.state = tstate.FREE) :
    ∃ i t, i < n ∧ ts[i]? = some t ∧ t.state = tstate.FREE ∧
      ∀ j u, j < i → ts[j]? = some u → u.state ≠ tstate.FREE := by
  classical
  have hex : ∃ i, ∃ t, i < n ∧ ts[i]? = some t ∧ t.state = tstate.FREE := h
  obtain ⟨t, hlt, hget, hfree⟩ := Nat.find_spec hex
  refine ⟨Nat.find hex, t, hlt, hget, hfree, ?_⟩
  intro j u hj hu hfu
  exact Nat.find_min hex hj ⟨u, by omega, hu, hfu⟩

/-- C1: when some slot below `MAX_UTHREADS` is FREE, `uthread_create` returns 0
and changes exactly the FREE slot of lowest index `i`: its priority becomes
`priority`, its `context.ra` becomes `start_func`, its `context.sp` becomes the
base address of its own stack plus `STACK_SIZE`, its state becomes RUNNABLE;
every other slot, every successor link, the number of slots and the
current-thread pointer are as before. The stack arrays are taken to lie inside
the 64-bit address space. -/
theorem uthread_create_fills_first_free (MAX_UTHREADS STACK_SIZE start_func : Nat)
    (priority : sched_priority) (s : State)
    (hfree : ∃ (i : Nat) (t : uthread),
      i < MAX_UTHREADS ∧ s.threads[i]? = some t ∧ t.state = tstate.FREE)
    (hfit : ∀ t ∈ s.threads, t.ustack + STACK_SIZE < 2 ^ 64) :
    ∃ (i : Nat) (t : uthread),
      i < MAX_UTHREADS ∧ s.threads[i]? = some t ∧ t.state = tstate.FREE ∧
      (∀ (j : Nat) (u : uthread), j < i → s.threads[j]? = some u → u.state ≠ tstate.FREE) ∧
      (uthread_create MAX_UTHREADS STACK_SIZE start_func priority s).2 = 0 ∧
      (uthread_create MAX_UTHREADS STACK_SIZE start_func priority s).1.threads[i]?
        = some { t with
                 priority := priority,
                 context := { t.context with ra := start_func, sp := t.ustack + STACK_SIZE },
                 state := tstate.RUNNABLE } ∧
      (∀ j : Nat, j ≠ i →
        (uthread_create MAX_UTHREADS STACK_SIZE start_func priority s).1.threads[j]?
          = s.threads[j]?) ∧
      (∀ j : Nat, ((uthread_create MAX_UTHREADS STACK_SIZE start_func priority s).1.threads[j]?).map
          uthread.next_thread = (s.threads[j]?).map uthread.next_thread) ∧
      (uthread_create MAX_UTHREADS STACK_SIZE start_func priority s).1.threads.length
        = s.threads.length ∧
      (uthread_create MAX_UTHREADS STACK_SIZE start_func priority s).1.current_thread
        = s.current_thread := by
  obtain ⟨i, t, hi, hget, hfr, hmin⟩ := first_free_exists s.threads MAX_UTHREADS hfree
  have hloop := create_loop_found STACK_SIZE start_func priority s.threads i t hget hfr
    MAX_UTHREADS 0 (Nat.zero_le _) (by omega) (fun j u _ hj hu => hmin j u hj hu)
  have hlt : t.ustack + STACK_SIZE < 2 ^ 64 := hfit t (List.getElem?_mem hget)
  refine ⟨i, t, hi, hget, hfr, hmin, ?_, ?_, ?_, ?_, ?_, ?_⟩
  · simp [uthread_create, hloop]
  · simp [uthread_create, hloop, set_slot_get_same, hget, create_fill]
    simpa using hlt
  · intro j hj
    simp [uthread_create, hloop, set_slot_get_other _ _ _ _ hj]
  · intro j
    by_cases hj : j = i
    · subst hj
      simp [uthread_create, hloop, set_slot_get_same, hget, create_fill]
    · simp [uthread_create, hloop, set_slot_get_other _ _ _ _ hj]
  · simp [uthread_create, hloop, set_slot_length]
  · simp [uthread_create]

/-- C2: `uthread_create` returns -1 exactly when no slot below `MAX_UTHREADS`
is FREE, and a call that returns -1 leaves the whole state (table and
current-thread pointer) as it was. -/
theorem uthread_create_fails_iff_full (MAX_UTHREADS STACK_SIZE start_func : Nat)
    (priority : sched_priority) (s : State) :
    ((uthread_create MAX_UTHREADS STACK_SIZE start_func priority s).2 = -1 ↔
      ∀ (i : Nat) (t : uthread), i < MAX_UTHREADS → s.threads[i]? = some t → t.state ≠ tstate.FREE) ∧
    ((uthread_create MAX_UTHREADS STACK_SIZE start_func priority s).2 = -1 →
      (uthread_create MAX_UTHREADS STACK_SIZE start_func priority s).1 = s) := by
  have hiff : (uthread_create MAX_UTHREADS STACK_SIZE start_func priority s).2 = -1 ↔
      ∀ (i : Nat) (t : uthread), i < MAX_UTHREADS → s.threads[i]? = some t → t.state ≠ tstate.FREE := by
    constructor
    · intro hret i t hi hget hfr
      obtain ⟨i1, t1, hi1, hget1, hfr1, hmin1⟩ :=
        first_free_exists s.threads MAX_UTHREADS ⟨i, t, hi, hget, hfr⟩
      have hloop := create_loop_found STACK_SIZE start_func priority s.threads i1 t1 hget1 hfr1
        MAX_UTHREADS 0 (Nat.zero_le _) (by omega) (fun j u _ hj hu => hmin1 j u hj hu)
      simp [uthread_create, hloop] at hret
    · intro hall
      have hloop := create_loop_full STACK_SIZE start_func priority s.threads MAX_UTHREADS 0
        (fun j u _ hj hu => hall j u (by omega) hu)
      simp [uthread_create, hloop]
  refine ⟨hiff, ?_⟩
  intro hret
  have hloop := create_loop_full STACK_SIZE start_func priority s.threads MAX_UTHREADS 0
    (fun j u _ hj hu => hiff.mp hret j u (by omega) hu)
  simp [uthread_create, hloop]

/-- The statement of C1 at a table of two slots of which slot 0 is taken: the
call fills slot 1. -/
theorem uthread_create_fills_first_free_witness :
    ∃ (i : Nat) (t : uthread),
      i < 2 ∧ sample_one_of_two.threads[i]? = some t ∧ t.state = tstate.FREE ∧
      (∀ (j : Nat) (u : uthread),
        j < i → sample_one_of_two.threads[j]? = some u → u.state ≠ tstate.FREE) ∧
      (uthread_create 2 4000 128 sched_priority.HIGH sample_one_of_two).2 = 0 ∧
      (uthread_create 2 4000 128 sched_priority.HIGH sample_one_of_two).1.threads[i]?
        = some { t with
                 priority := sched_priority.HIGH,
                 context := { t.context with ra := 128, sp := t.ustack + 4000 },
                 state := tstate.RUNNABLE } ∧
      (∀ j : Nat, j ≠ i →
        (uthread_create 2 4000 128 sched_priority.HIGH sample_one_of_two).1.threads[j]?
          = sample_one_of_two.threads[j]?) ∧
      (∀ j : Nat,
        ((uthread_create 2 4000 128 sched_priority.HIGH sample_one_of_two).1.threads[j]?).map
          uthread.next_thread = (sample_one_of_two.threads[j]?).map uthread.next_thread) ∧
      (uthread_create 2 4000 128 sched_priority.HIGH sample_one_of_two).1.threads.length
        = sample_one_of_two.threads.length ∧
      (uthread_create 2 4000 128 sched_priority.HIGH sample_one_of_two).1.current_thread
        = sample_one_of_two.current_thread :=
  uthread_create_fills_first_free 2 4000 128 sched_priority.HIGH sample_one_of_two
    ⟨1, { zeroed 12288 with next_thread := some 0 }, by decide, by decide, by decide⟩
    (by decide)

/-! ## init_uthreads -/

theorem init_fold_get (MAX_UTHREADS : Nat) (ts : List uthread) (n i : Nat) :
    ((List.range n).foldl (init_body MAX_UTHREADS) ts)[i]?
      = if i < n then
          (ts[i]?).map (fun t =>
            { t with state := tstate.FREE, next_thread := some ((i + 1) % MAX_UTHREADS) })
        else ts[i]? := by
  induction n with
  | zero => simp
  | succ n ih =>
    rw [List.range_succ, List.foldl_append]
    simp only [List.foldl_cons, List.foldl_nil, init_body]
    by_cases hin : i = n
    · subst hin
      rw [set_slot_get_same, ih]
      simp
    · rw [set_slot_get_other _ _ _ _ hin, ih]
      by_cases hlt : i < n
      · have : i < n + 1 := by omega
        simp [hlt, this]
      · have : ¬ i < n + 1 := by omega
        simp [hlt, this]

theorem init_fold_length (MAX_UTHREADS : Nat) (ts : List uthread) (n : Nat) :
    ((List.range n).foldl (init_body MAX_UTHREADS) ts).length = ts.length := by
  induction n with
  | zero => simp
  | succ n ih =>
    rw [List.range_succ, List.foldl_append]
    simp only [List.foldl_cons, List.foldl_nil, init_body]
    rw [set_slot_length, ih]

theorem init_uthreads_length (MAX_UTHREADS : Nat) (s : State) :
    (init_uthreads MAX_UTHREADS s).threads.length = s.threads.length :=
  init_fold_length MAX_UTHREADS s.threads MAX_UTHREADS

theorem init_uthreads_get (MAX_UTHREADS : Nat) (s : State) (i : Nat) (hi : i < MAX_UTHREADS) :
    (init_uthreads MAX_UTHREADS s).threads[i]?
      = (s.threads[i]?).map (fun t =>
          { t with state := tstate.FREE, next_thread := some ((i + 1) % MAX_UTHREADS) }) := by
  have h := init_fold_get MAX_UTHREADS s.threads MAX_UTHREADS i
  simp only [hi, if_true] at h
  exact h

theorem init_uthreads_filled (MAX_UTHREADS : Nat) (s : State)
    (hlen : s.threads.length = MAX_UTHREADS) :
    filled_upto MAX_UTHREADS 0 (init_uthreads MAX_UTHREADS s).threads := by
  constructor
  · intro i hi
    omega
  · intro i _ hi
    obtain ⟨t, ht⟩ := slot_of_lt s.threads i (by omega)
    rw [init_uthreads_get MAX_UTHREADS s i hi, ht]
    exact ⟨_, rfl, rfl⟩

/-! ## Filling the table -/

theorem create_at_filled (MAX_UTHREADS STACK_SIZE start_func : Nat) (priority : sched_priority)
    (s : State) (k : Nat) (hk : k < MAX_UTHREADS)
    (hinv : filled_upto MAX_UTHREADS k s.threads) :
    uthread_create MAX_UTHREADS STACK_SIZE start_func priority s
      = ({ s with threads := set_slot s.threads k (create_fill STACK_SIZE start_func priority) },
         0) := by
  obtain ⟨t, hget, hfr⟩ := hinv.2 k (Nat.le_refl _) hk
  have hloop := create_loop_found STACK_SIZE start_func priority s.threads k t hget hfr
    MAX_UTHREADS 0 (Nat.zero_le _) (by omega)
    (fun j u _ hj hu hfu => by
      obtain ⟨v, hv, hrun⟩ := hinv.1 j hj
      rw [hv] at hu
      cases hu
      rw [hrun] at hfu
      exact tstate.noConfusion hfu)
  simp [uthread_create, hloop]

theorem create_keeps_filled (MAX_UTHREADS STACK_SIZE start_func : Nat) (priority : sched_priority)
    (ts : List uthread) (k : Nat) (hk : k < MAX_UTHREADS)
    (hinv : filled_upto MAX_UTHREADS k ts) :
    filled_upto MAX_UTHREADS (k + 1)
      (set_slot ts k (create_fill STACK_SIZE start_func priority)) := by
  constructor
  · intro i hi
    by_cases hik : i = k
    · subst hik
      obtain ⟨t, hget, _⟩ := hinv.2 i (Nat.le_refl _) hk
      rw [set_slot_get_same, hget]
      exact ⟨_, rfl, rfl⟩
    · obtain ⟨t, hget, hrun⟩ := hinv.1 i (by omega)
      rw [set_slot_get_other _ _ _ _ hik]
      exact ⟨t, hget, hrun⟩
  · intro i hki hi
    have hik : i ≠ k := by omega
    obtain ⟨t, hget, hfr⟩ := hinv.2 i (by omega) hi
    rw [set_slot_get_other _ _ _ _ hik]
    exact ⟨t, hget, hfr⟩

theorem create_when_filled (MAX_UTHREADS STACK_SIZE start_func : Nat) (priority : sched_priority)
    (s : State) (hinv : filled_upto MAX_UTHREADS MAX_UTHREADS s.threads) :
    uthread_create MAX_UTHREADS STACK_SIZE start_func priority s = (s, -1) := by
  have hloop := create_loop_full STACK_SIZE start_func priority s.threads MAX_UTHREADS 0
    (fun j u _ hj hu hfu => by
      obtain ⟨v, hv, hrun⟩ := hinv.1 j (by omega)
      rw [hv] at hu
      cases hu
      rw [hrun] at hfu
      exact tstate.noConfusion hfu)
  simp [uthread_create, hloop]

/-- Consecutive creations on a table filled up to `k`: every call returns 0,
the `j`-th of them fills slot `k + j`, no other slot changes. -/
theorem create_all_spec (MAX_UTHREADS STACK_SIZE : Nat) :
    ∀ (args : List (Nat × sched_priority)) (k : Nat) (s : State),
      filled_upto MAX_UTHREADS k s.threads → k + args.length ≤ MAX_UTHREADS →
      (create_all MAX_UTHREADS STACK_SIZE args s).2 = List.replicate args.length 0 ∧
      (create_all MAX_UTHREADS STACK_SIZE args s).1.current_thread = s.current_thread ∧
      filled_upto MAX_UTHREADS (k + args.length)
        (create_all MAX_UTHREADS STACK_SIZE args s).1.threads ∧
      (∀ i : Nat, i < k ∨ k + args.length ≤ i →
        (create_all MAX_UTHREADS STACK_SIZE args s).1.threads[i]? = s.threads[i]?) ∧
      (∀ (j : Nat) (a : Nat × sched_priority), args[j]? = some a →
        (create_all MAX_UTHREADS STACK_SIZE args s).1.threads[k + j]?
          = (s.threads[k + j]?).map (create_fill STACK_SIZE a.1 a.2)) := by
  intro args
  induction args with
  | nil =>
    intro k s hinv _
    refine ⟨rfl, rfl, by simpa [create_all] using hinv, fun i _ => rfl, ?_⟩
    intro j a ha
    simp at ha
  | cons a rest ih =>
    intro k s hinv hle
    have hlen : (a :: rest).length = rest.length + 1 := rfl
    have hk : k < MAX_UTHREADS := by omega
    have hcreate := create_at_filled MAX_UTHREADS STACK_SIZE a.1 a.2 s k hk hinv
    have hinv1 := create_keeps_filled MAX_UTHREADS STACK_SIZE a.1 a.2 s.threads k hk hinv
    obtain ⟨h1, h2, h3, h4, h5⟩ := ih (k + 1)
      { s with threads := set_slot s.threads k (create_fill STACK_SIZE a.1 a.2) }
      hinv1 (by omega)
    simp only [create_all, hcreate]
    refine ⟨?_, ?_, ?_, ?_, ?_⟩
    · rw [h1]
      rfl
    · rw [h2]
    · have : k + (a :: rest).length = k + 1 + rest.length := by omega
      rw [this]
      exact h3
    · intro i hi
      have hik : i ≠ k := by omega
      rw [h4 i (by omega)]
      exact set_slot_get_other _ _ _ _ hik
    · intro j b hb
      cases j with
      | zero =>
        simp at hb
        subst hb
        have h := h4 k (Or.inl (by omega))
        rw [Nat.add_zero, h]
        exact set_slot_get_same _ _ _
      | succ j =>
        simp at hb
        have hne : k + 1 + j ≠ k := by omega
        have := h5 j b hb
        rw [set_slot_get_other _ _ _ _ hne] at this
        have he : k + (j + 1) = k + 1 + j := by omega
        rw [he]
        exact this

/-- C3: on the table produced by `init_uthreads`, `MAX_UTHREADS` consecutive
calls of `uthread_create` with arbitrary arguments all return 0; the call
number `k + 1` fills slot `k` and changes nothing else; afterwards slot `k` is
RUNNABLE with the priority, `ra` and `sp` its call gave it; and one more call
returns -1 and leaves the state exactly as the earlier calls left it. -/
theorem create_fills_table_then_fails (MAX_UTHREADS STACK_SIZE : Nat) (s0 : State)
    (args : List (Nat × sched_priority)) (last : Nat × sched_priority)
    (hlen : s0.threads.length = MAX_UTHREADS) (hargs : args.length = MAX_UTHREADS) :
    (create_all MAX_UTHREADS STACK_SIZE args (init_uthreads MAX_UTHREADS s0)).2
      = List.replicate MAX_UTHREADS 0 ∧
    (∀ (k : Nat) (a : Nat × sched_priority), args[k]? = some a →
      uthread_create MAX_UTHREADS STACK_SIZE a.1 a.2
          (create_all MAX_UTHREADS STACK_SIZE (args.take k) (init_uthreads MAX_UTHREADS s0)).1
        = ({ (create_all MAX_UTHREADS STACK_SIZE (args.take k)
                (init_uthreads MAX_UTHREADS s0)).1 with
             threads :=
               set_slot
                 (create_all MAX_UTHREADS STACK_SIZE (args.take k)
                   (init_uthreads MAX_UTHREADS s0)).1.threads
                 k (create_fill STACK_SIZE a.1 a.2) },
           0)) ∧
    (∀ (k : Nat) (a : Nat × sched_priority), args[k]? = some a →
      ∃ t : uthread,
        (create_all MAX_UTHREADS STACK_SIZE args (init_uthreads MAX_UTHREADS s0)).1.threads[k]?
          = some t ∧
        t.state = tstate.RUNNABLE ∧ t.priority = a.2 ∧ t.context.ra = a.1 ∧
        t.context.sp = (t.ustack + STACK_SIZE) % 2 ^ 64) ∧
    uthread_create MAX_UTHREADS STACK_SIZE last.1 last.2
        (create_all MAX_UTHREADS STACK_SIZE args (init_uthreads MAX_UTHREADS s0)).1
      = ((create_all MAX_UTHREADS STACK_SIZE args (init_uthreads MAX_UTHREADS s0)).1, -1) := by
  have hinit := init_uthreads_filled MAX_UTHREADS s0 hlen
  obtain ⟨h1, _, h3, _, h5⟩ := create_all_spec MAX_UTHREADS STACK_SIZE args 0
    (init_uthreads MAX_UTHREADS s0) hinit (by omega)
  refine ⟨?_, ?_, ?_, ?_⟩
  · rw [h1, hargs]
  · intro k a ha
    have hk : k < args.length := lt_of_slot_args args k a ha
    have htake : (args.take k).length = k := by
      rw [List.length_take]
      omega
    obtain ⟨_, _, g3, _, _⟩ := create_all_spec MAX_UTHREADS STACK_SIZE (args.take k) 0
      (init_uthreads MAX_UTHREADS s0) hinit (by omega)
    rw [htake, Nat.zero_add] at g3
    exact create_at_filled MAX_UTHREADS STACK_SIZE a.1 a.2 _ k (by omega) g3
  · intro k a ha
    have hk : k < args.length := lt_of_slot_args args k a ha
    have h := h5 k a ha
    rw [Nat.zero_add] at h
    obtain ⟨t, ht, _⟩ := hinit.2 k (Nat.zero_le _) (by omega)
    rw [ht] at h
    exact ⟨_, h, rfl, rfl, rfl, rfl⟩
  · rw [hargs, Nat.zero_add] at h3
    exact create_when_filled MAX_UTHREADS STACK_SIZE last.1 last.2 _ h3

/-- The statement of C3 at a table of two slots. -/
theorem create_fills_table_then_fails_witness :
    (create_all 2 4000 sample_args (init_uthreads 2 (zeroed_State 8192 4096 2))).2
      = List.replicate 2 0 ∧
    (∀ (k : Nat) (a : Nat × sched_priority), sample_args[k]? = some a →
      uthread_create 2 4000 a.1 a.2
          (create_all 2 4000 (sample_args.take k) (init_uthreads 2 (zeroed_State 8192 4096 2))).1
        = ({ (create_all 2 4000 (sample_args.take k)
                (init_uthreads 2 (zeroed_State 8192 4096 2))).1 with
             threads :=
               set_slot
                 (create_all 2 4000 (sample_args.take k)
                   (init_uthreads 2 (zeroed_State 8192 4096 2))).1.threads
                 k (create_fill 4000 a.1 a.2) },
           0)) ∧
    (∀ (k : Nat) (a : Nat × sched_priority), sample_args[k]? = some a →
      ∃ t : uthread,
        (create_all 2 4000 sample_args (init_uthreads 2 (zeroed_State 8192 4096 2))).1.threads[k]?
          = some t ∧
        t.state = tstate.RUNNABLE ∧ t.priority = a.2 ∧ t.context.ra = a.1 ∧
        t.context.sp = (t.ustack + 4000) % 2 ^ 64) ∧
    uthread_create 2 4000 (192, sched_priority.MEDIUM).1 (192, sched_priority.MEDIUM).2
        (create_all 2 4000 sample_args (init_uthreads 2 (zeroed_State 8192 4096 2))).1
      = ((create_all 2 4000 sample_args (init_uthreads 2 (zeroed_State 8192 4096 2))).1, -1) :=
  create_fills_table_then_fails 2 4000 (zeroed_State 8192 4096 2) sample_args
    (192, sched_priority.MEDIUM) (by decide) (by decide)

/-! ## The search loop of uthread_yield on the ring -/

theorem ring_links_mark (MAX_UTHREADS : Nat) (ts : List uthread) (c : Nat)
    (f : uthread → uthread) (hf : ∀ t, (f t).next_thread = t.next_thread)
    (hring : ring_links MAX_UTHREADS ts) :
    ring_links MAX_UTHREADS (set_slot ts c f) := by
  intro i t hget
  by_cases hic : i = c
  · subst hic
    rw [set_slot_get_same] at hget
    cases hu : ts[i]? with
    | none => rw [hu] at hget; exact Option.noConfusion hget
    | some u =>
      rw [hu] at hget
      simp only [Option.map_some'] at hget
      cases hget
      rw [hf u]
      exact hring i u hu
  · rw [set_slot_get_other _ _ _ _ hic] at hget
    exact hring i t hget

/-- On a ring, when the slots at distances below `d` from `p` are not RUNNABLE
and the slot at distance `d` is, the loop started at `p` stops at that slot
after `d` successor steps, provided it may evaluate its condition `d + 1`
times. -/
theorem yield_loop_ring (MAX_UTHREADS : Nat) (ts : List uthread)
    (hlen : ts.length = MAX_UTHREADS) (hring : ring_links MAX_UTHREADS ts) :
    ∀ (d p fuel steps : Nat), p < MAX_UTHREADS → d < fuel →
      (∀ (e : Nat) (t : uthread), e < d → ts[(p + e) % MAX_UTHREADS]? = some t →
        t.state ≠ tstate.RUNNABLE) →
      (∃ t : uthread, ts[(p + d) % MAX_UTHREADS]? = some t ∧ t.state = tstate.RUNNABLE) →
      yield_loop ts fuel (some p) steps = some ((p + d) % MAX_UTHREADS, steps + d) := by
  intro d
  induction d with
  | zero =>
    intro p fuel steps hp hfuel _ hrun
    obtain ⟨t, hget, hst⟩ := hrun
    rw [Nat.add_zero, Nat.mod_eq_of_lt hp] at hget
    obtain ⟨f, rfl⟩ : ∃ f, fuel = f + 1 := ⟨fuel - 1, by omega⟩
    simp [yield_loop, hget, hst, Nat.mod_eq_of_lt hp]
  | succ d ih =>
    intro p fuel steps hp hfuel hskip hrun
    obtain ⟨f, rfl⟩ : ∃ f, fuel = f + 1 := ⟨fuel - 1, by omega⟩
    obtain ⟨t, hget⟩ := slot_of_lt ts p (by omega)
    have hnr : t.state ≠ tstate.RUNNABLE :=
      hskip 0 t (by omega) (by rw [Nat.add_zero, Nat.mod_eq_of_lt hp]; exact hget)
    have hnext : t.next_thread = some ((p + 1) % MAX_UTHREADS) := hring p t hget
    have hpos : 0 < MAX_UTHREADS := by omega
    have hshift : ∀ e : Nat,
        ((p + 1) % MAX_UTHREADS + e) % MAX_UTHREADS = (p + (e + 1)) % MAX_UTHREADS := by
      intro e
      rw [Nat.mod_add_mod]
      congr 1
      omega
    have hrec := ih ((p + 1) % MAX_UTHREADS) f (steps + 1) (Nat.mod_lt _ hpos) (by omega)
      (fun e u he hu => hskip (e + 1) u (by omega) (by rw [← hshift e]; exact hu))
      (by
        obtain ⟨u, hu, hst⟩ := hrun
        exact ⟨u, by rw [hshift d]; exact hu, hst⟩)
    rw [hshift d] at hrec
    have hsteps : steps + 1 + d = steps + (d + 1) := by omega
    rw [hsteps] at hrec
    simp [yield_loop, hget, hnr, hnext, hrec]

theorem mod_self_add (c n : Nat) (hc : c < n) : (c + n) % n = c := by
  rw [Nat.add_mod_right, Nat.mod_eq_of_lt hc]

/-- The search of `uthread_yield` from the successor of slot `c` on a ring in
which slot `c` is RUNNABLE: it stops at the slot at the least distance
`d` in `1 .. MAX_UTHREADS` from `c` that is RUNNABLE, after `d - 1` successor
steps, for every fuel from `MAX_UTHREADS` on. -/
theorem yield_search (MAX_UTHREADS : Nat) (ts : List uthread) (c : Nat)
    (hlen : ts.length = MAX_UTHREADS) (hring : ring_links MAX_UTHREADS ts)
    (hc : c < MAX_UTHREADS)
    (hrun : ∃ t : uthread, ts[c]? = some t ∧ t.state = tstate.RUNNABLE) :
    ∃ d : Nat, 1 ≤ d ∧ d ≤ MAX_UTHREADS ∧
      (∃ t : uthread, ts[(c + d) % MAX_UTHREADS]? = some t ∧ t.state = tstate.RUNNABLE) ∧
      (∀ (e : Nat) (t : uthread), 1 ≤ e → e < d → ts[(c + e) % MAX_UTHREADS]? = some t →
        t.state ≠ tstate.RUNNABLE) ∧
      (∀ fuel : Nat, MAX_UTHREADS ≤ fuel →
        yield_loop ts fuel (some ((c + 1) % MAX_UTHREADS)) 0
          = some ((c + d) % MAX_UTHREADS, d - 1)) := by
  classical
  have hex : ∃ d : Nat, 1 ≤ d ∧
      ∃ t : uthread, ts[(c + d) % MAX_UTHREADS]? = some t ∧ t.state = tstate.RUNNABLE := by
    obtain ⟨t, hget, hst⟩ := hrun
    exact ⟨MAX_UTHREADS, by omega, t, by rw [mod_self_add c _ hc]; exact hget, hst⟩
  have hle : Nat.find hex ≤ MAX_UTHREADS := by
    apply Nat.find_min'
    obtain ⟨t, hget, hst⟩ := hrun
    exact ⟨by omega, t, by rw [mod_self_add c _ hc]; exact hget, hst⟩
  obtain ⟨hd1, hdrun⟩ := Nat.find_spec hex
  have hmin : ∀ (e : Nat) (t : uthread), 1 ≤ e → e < Nat.find hex →
      ts[(c + e) % MAX_UTHREADS]? = some t → t.state ≠ tstate.RUNNABLE := by
    intro e t he1 he2 hget hst
    exact Nat.find_min hex he2 ⟨he1, t, hget, hst⟩
  refine ⟨Nat.find hex, hd1, hle, hdrun, hmin, ?_⟩
  intro fuel hfuel
  have hpos : 0 < MAX_UTHREADS := by omega
  have hshift : ∀ e : Nat,
      ((c + 1) % MAX_UTHREADS + e) % MAX_UTHREADS = (c + (e + 1)) % MAX_UTHREADS := by
    intro e
    rw [Nat.mod_add_mod]
    congr 1
    omega
  have hd : Nat.find hex - 1 + 1 = Nat.find hex := by omega
  have h := yield_loop_ring MAX_UTHREADS ts hlen hring (Nat.find hex - 1)
    ((c + 1) % MAX_UTHREADS) fuel 0 (Nat.mod_lt _ hpos) (by omega)
    (fun e t he hget => hmin (e + 1) t (by omega) (by omega) (by rw [← hshift e]; exact hget))
    (by
      obtain ⟨t, hget, hst⟩ := hdrun
      exact ⟨t, by rw [hshift, hd]; exact hget, hst⟩)
  rw [hshift, hd, Nat.zero_add] at h
  exact h

/-- C4: with the ring links of `init_uthreads` and the current thread at slot
`c`, `uthread_yield` marks `c` RUNNABLE and makes current the slot
`(c + d) % MAX_UTHREADS` for the least `d` in `1 .. MAX_UTHREADS` whose slot is
then RUNNABLE; it calls `uswtch` with the context of slot `c` as the save
target and the context of the selected slot as the restore source; and the
selected slot is `c` itself exactly when no other slot is RUNNABLE. -/
theorem uthread_yield_selects_next_runnable (MAX_UTHREADS : Nat) (s : State) (c : Nat)
    (hlen : s.threads.length = MAX_UTHREADS) (hring : ring_links MAX_UTHREADS s.threads)
    (hcur : s.current_thread = some c) (hc : c < MAX_UTHREADS) :
    ∃ d : Nat, 1 ≤ d ∧ d ≤ MAX_UTHREADS ∧
      (∃ t : uthread,
        (set_slot s.threads c (fun t => { t with state := tstate.RUNNABLE }))[(c + d) % MAX_UTHREADS]?
          = some t ∧ t.state = tstate.RUNNABLE) ∧
      (∀ (e : Nat) (t : uthread), 1 ≤ e → e < d →
        (set_slot s.threads c (fun t => { t with state := tstate.RUNNABLE }))[(c + e) % MAX_UTHREADS]?
          = some t → t.state ≠ tstate.RUNNABLE) ∧
      (∀ fuel : Nat, MAX_UTHREADS ≤ fuel →
        uthread_yield fuel s
          = some ({ threads := set_slot s.threads c (fun t => { t with state := tstate.RUNNABLE }),
                    current_thread := some ((c + d) % MAX_UTHREADS) },
                  { old_context := c, new_context := (c + d) % MAX_UTHREADS })) ∧
      ((c + d) % MAX_UTHREADS = c ↔
        ∀ (j : Nat) (t : uthread), j ≠ c → s.threads[j]? = some t →
          t.state ≠ tstate.RUNNABLE) := by
  obtain ⟨cur, hcurget⟩ := slot_of_lt s.threads c (by omega)
  have hlen1 : (set_slot s.threads c (fun t => { t with state := tstate.RUNNABLE })).length
      = MAX_UTHREADS := by rw [set_slot_length]; exact hlen
  have hring1 : ring_links MAX_UTHREADS
      (set_slot s.threads c (fun t => { t with state := tstate.RUNNABLE })) :=
    ring_links_mark MAX_UTHREADS s.threads c _ (fun _ => rfl) hring
  have hrun1 : ∃ t : uthread,
      (set_slot s.threads c (fun t => { t with state := tstate.RUNNABLE }))[c]? = some t ∧
        t.state = tstate.RUNNABLE := by
    rw [set_slot_get_same, hcurget]
    exact ⟨_, rfl, rfl⟩
  obtain ⟨d, hd1, hdN, hdrun, hmin, hloop⟩ := yield_search MAX_UTHREADS _ c hlen1 hring1 hc hrun1
  have hnext : cur.next_thread = some ((c + 1) % MAX_UTHREADS) := hring c cur hcurget
  refine ⟨d, hd1, hdN, hdrun, hmin, ?_, ?_⟩
  · intro fuel hfuel
    simp [uthread_yield, uthread_self, hcur, hcurget, hnext, hloop fuel hfuel]
  · constructor
    · intro hself j t hjc hget hst
      -- the selected slot is c, so d = MAX_UTHREADS and every other slot was skipped
      have hdeq : d = MAX_UTHREADS := by
        by_contra hne
        have hlt : c + d < MAX_UTHREADS ∨ MAX_UTHREADS ≤ c + d := by omega
        rcases hlt with hlt | hge
        · rw [Nat.mod_eq_of_lt hlt] at hself
          omega
        · have h2 : (c + d) % MAX_UTHREADS = c + d - MAX_UTHREADS := by
            rw [Nat.mod_eq_sub_mod hge, Nat.mod_eq_of_lt (by omega)]
          rw [h2] at hself
          omega
      have hj : j < MAX_UTHREADS := by
        have := lt_of_slot s.threads j t hget
        omega
      have hget1 : (set_slot s.threads c (fun t => { t with state := tstate.RUNNABLE }))[j]?
          = some t := by rw [set_slot_get_other _ _ _ _ hjc]; exact hget
      by_cases hjgt : c < j
      · have hmod : (c + (j - c)) % MAX_UTHREADS = j := by
          have : c + (j - c) = j := by omega
          rw [this, Nat.mod_eq_of_lt hj]
        exact hmin (j - c) t (by omega) (by omega) (by rw [hmod]; exact hget1) hst
      · have hmod : (c + (MAX_UTHREADS - c + j)) % MAX_UTHREADS = j := by
          have : c + (MAX_UTHREADS - c + j) = j + MAX_UTHREADS := by omega
          rw [this, mod_self_add j _ hj]
        exact hmin (MAX_UTHREADS - c + j) t (by omega) (by omega) (by rw [hmod]; exact hget1) hst
    · intro hnone
      by_contra hne
      obtain ⟨t, hget, hst⟩ := hdrun
      rw [set_slot_get_other _ _ _ _ hne] at hget
      exact hnone _ t hne hget hst

/-! ## The ring links are kept -/

theorem ring_links_init (MAX_UTHREADS : Nat) (s : State)
    (hlen : s.threads.length = MAX_UTHREADS) :
    ring_links MAX_UTHREADS (init_uthreads MAX_UTHREADS s).threads := by
  intro i t hget
  have hi : i < MAX_UTHREADS := by
    have := lt_of_slot _ i t hget
    rw [init_uthreads_length] at this
    omega
  rw [init_uthreads_get MAX_UTHREADS s i hi] at hget
  cases hu : s.threads[i]? with
  | none => rw [hu] at hget; exact Option.noConfusion hget
  | some u =>
    rw [hu] at hget
    simp only [Option.map_some'] at hget
    cases hget
    rfl

theorem create_loop_shape (STACK_SIZE start_func : Nat) (priority : sched_priority)
    (ts : List uthread) :
    ∀ k i0, (create_loop STACK_SIZE start_func priority k i0 ts).1 = ts ∨
      ∃ i, (create_loop STACK_SIZE start_func priority k i0 ts).1
        = set_slot ts i (create_fill STACK_SIZE start_func priority) := by
  intro k
  induction k with
  | zero => intro i0; exact Or.inl rfl
  | succ k ih =>
    intro i0
    cases hu : ts[i0]? with
    | none => left; simp [create_loop, hu]
    | some u =>
      by_cases hfr : u.state = tstate.FREE
      · right
        exact ⟨i0, by simp [create_loop, hu, hfr]⟩
      · have h := ih (i0 + 1)
        simp only [create_loop, hu, hfr, if_false]
        exact h

theorem ring_links_create (MAX_UTHREADS STACK_SIZE start_func : Nat) (priority : sched_priority)
    (s : State) (hring : ring_links MAX_UTHREADS s.threads) :
    ring_links MAX_UTHREADS
      (uthread_create MAX_UTHREADS STACK_SIZE start_func priority s).1.threads := by
  rcases create_loop_shape STACK_SIZE start_func priority s.threads MAX_UTHREADS 0 with h | ⟨i, h⟩
  · simp only [uthread_create, h]
    exact hring
  · simp only [uthread_create, h]
    exact ring_links_mark MAX_UTHREADS s.threads i _ (fun _ => rfl) hring

theorem create_length (MAX_UTHREADS STACK_SIZE start_func : Nat) (priority : sched_priority)
    (s : State) :
    (uthread_create MAX_UTHREADS STACK_SIZE start_func priority s).1.threads.length
      = s.threads.length := by
  rcases create_loop_shape STACK_SIZE start_func priority s.threads MAX_UTHREADS 0 with h | ⟨i, h⟩
  · simp only [uthread_create, h]
  · simp only [uthread_create, h, set_slot_length]

theorem sample_one_of_two_ring : ring_links 2 (started 0 sample_one_of_two).threads :=
  ring_links_create 2 4000 64 sched_priority.LOW _
    (ring_links_init 2 (zeroed_State 8192 4096 2) (by decide))

/-- The statement of C4 at a table of two slots in which only slot 0 is taken
and current. -/
theorem uthread_yield_selects_next_runnable_witness :
    ∃ d : Nat, 1 ≤ d ∧ d ≤ 2 ∧
      (∃ t : uthread,
        (set_slot (started 0 sample_one_of_two).threads 0
            (fun t => { t with state := tstate.RUNNABLE }))[(0 + d) % 2]?
          = some t ∧ t.state = tstate.RUNNABLE) ∧
      (∀ (e : Nat) (t : uthread), 1 ≤ e → e < d →
        (set_slot (started 0 sample_one_of_two).threads 0
            (fun t => { t with state := tstate.RUNNABLE }))[(0 + e) % 2]?
          = some t → t.state ≠ tstate.RUNNABLE) ∧
      (∀ fuel : Nat, 2 ≤ fuel →
        uthread_yield fuel (started 0 sample_one_of_two)
          = some ({ threads := set_slot (started 0 sample_one_of_two).threads 0
                      (fun t => { t with state := tstate.RUNNABLE }),
                    current_thread := some ((0 + d) % 2) },
                  { old_context := 0, new_context := (0 + d) % 2 })) ∧
      ((0 + d) % 2 = 0 ↔
        ∀ (j : Nat) (t : uthread), j ≠ 0 → (started 0 sample_one_of_two).threads[j]? = some t →
          t.state ≠ tstate.RUNNABLE) :=
  uthread_yield_selects_next_runnable 2 (started 0 sample_one_of_two) 0 (by decide)
    sample_one_of_two_ring rfl (by decide)

/-- C5: with the ring links of `init_uthreads` and a current-thread pointer
that designates slot `c` of the table, the search loop of `uthread_yield`
(started at the successor of `c`, after `c` was marked RUNNABLE) stops, whatever
the states of the slots are: for every fuel from `MAX_UTHREADS` on it yields
the same slot after the same number of successor steps, which is below
`MAX_UTHREADS`, and `uthread_yield` reaches its call of `uswtch`. -/
theorem yield_loop_terminates (MAX_UTHREADS : Nat) (s : State) (c : Nat)
    (hlen : s.threads.length = MAX_UTHREADS) (hring : ring_links MAX_UTHREADS s.threads)
    (hcur : s.current_thread = some c) (hc : c < MAX_UTHREADS) :
    ∃ (current : uthread) (n steps : Nat),
      s.threads[c]? = some current ∧ steps < MAX_UTHREADS ∧ steps ≤ MAX_UTHREADS ∧
      ∀ fuel : Nat, MAX_UTHREADS ≤ fuel →
        yield_loop (set_slot s.threads c (fun t => { t with state := tstate.RUNNABLE })) fuel
            current.next_thread 0 = some (n, steps) ∧
        (uthread_yield fuel s).isSome = true := by
  obtain ⟨cur, hcurget⟩ := slot_of_lt s.threads c (by omega)
  have hlen1 : (set_slot s.threads c (fun t => { t with state := tstate.RUNNABLE })).length
      = MAX_UTHREADS := by rw [set_slot_length]; exact hlen
  have hring1 : ring_links MAX_UTHREADS
      (set_slot s.threads c (fun t => { t with state := tstate.RUNNABLE })) :=
    ring_links_mark MAX_UTHREADS s.threads c _ (fun _ => rfl) hring
  have hrun1 : ∃ t : uthread,
      (set_slot s.threads c (fun t => { t with state := tstate.RUNNABLE }))[c]? = some t ∧
        t.state = tstate.RUNNABLE := by
    rw [set_slot_get_same, hcurget]
    exact ⟨_, rfl, rfl⟩
  obtain ⟨d, hd1, hdN, _, _, hloop⟩ := yield_search MAX_UTHREADS _ c hlen1 hring1 hc hrun1
  have hnext : cur.next_thread = some ((c + 1) % MAX_UTHREADS) := hring c cur hcurget
  refine ⟨cur, (c + d) % MAX_UTHREADS, d - 1, hcurget, by omega, by omega, ?_⟩
  intro fuel hfuel
  constructor
  · rw [hnext]
    exact hloop fuel hfuel
  · simp [uthread_yield, uthread_self, hcur, hcurget, hnext, hloop fuel hfuel]

/-- The statement of C5 at a table of two slots in which only slot 0 is taken
and current. -/
theorem yield_loop_terminates_witness :
    ∃ (current : uthread) (n steps : Nat),
      (started 0 sample_one_of_two).threads[0]? = some current ∧ steps < 2 ∧ steps ≤ 2 ∧
      ∀ fuel : Nat, 2 ≤ fuel →
        yield_loop
            (set_slot (started 0 sample_one_of_two).threads 0
              (fun t => { t with state := tstate.RUNNABLE }))
            fuel current.next_thread 0 = some (n, steps) ∧
        (uthread_yield fuel (started 0 sample_one_of_two)).isSome = true :=
  yield_loop_terminates 2 (started 0 sample_one_of_two) 0 (by decide)
    sample_one_of_two_ring rfl (by decide)

/-! ## uthread_yield and uthread_exit on the ring -/

/-- With ring links and a current slot `c`, `uthread_yield` reaches `uswtch`:
the table is the old one with `c` marked RUNNABLE, the new current slot `n` is
RUNNABLE in it, and the call saves into `c` and restores from `n`. -/
theorem uthread_yield_shape (MAX_UTHREADS : Nat) (s : State) (c : Nat)
    (hlen : s.threads.length = MAX_UTHREADS) (hring : ring_links MAX_UTHREADS s.threads)
    (hcur : s.current_thread = some c) (hc : c < MAX_UTHREADS) :
    ∃ n : Nat, n < MAX_UTHREADS ∧
      (∃ t : uthread,
        (set_slot s.threads c (fun t => { t with state := tstate.RUNNABLE }))[n]? = some t ∧
          t.state = tstate.RUNNABLE) ∧
      (∀ fuel : Nat, MAX_UTHREADS ≤ fuel →
        uthread_yield fuel s
          = some ({ threads := set_slot s.threads c (fun t => { t with state := tstate.RUNNABLE }),
                    current_thread := some n },
                  { old_context := c, new_context := n })) := by
  obtain ⟨cur, hcurget⟩ := slot_of_lt s.threads c (by omega)
  have hlen1 : (set_slot s.threads c (fun t => { t with state := tstate.RUNNABLE })).length
      = MAX_UTHREADS := by rw [set_slot_length]; exact hlen
  have hring1 : ring_links MAX_UTHREADS
      (set_slot s.threads c (fun t => { t with state := tstate.RUNNABLE })) :=
    ring_links_mark MAX_UTHREADS s.threads c _ (fun _ => rfl) hring
  have hrun1 : ∃ t : uthread,
      (set_slot s.threads c (fun t => { t with state := tstate.RUNNABLE }))[c]? = some t ∧
        t.state = tstate.RUNNABLE := by
    rw [set_slot_get_same, hcurget]
    exact ⟨_, rfl, rfl⟩
  obtain ⟨d, _, _, hdrun, _, hloop⟩ := yield_search MAX_UTHREADS _ c hlen1 hring1 hc hrun1
  have hnext : cur.next_thread = some ((c + 1) % MAX_UTHREADS) := hring c cur hcurget
  refine ⟨(c + d) % MAX_UTHREADS, Nat.mod_lt _ (by omega), hdrun, ?_⟩
  intro fuel hfuel
  simp [uthread_yield, uthread_self, hcur, hcurget, hnext, hloop fuel hfuel]

/-- When no slot other than the current slot `c` is RUNNABLE, `uthread_yield`
selects `c` itself. -/
theorem uthread_yield_alone (MAX_UTHREADS : Nat) (s : State) (c : Nat)
    (hlen : s.threads.length = MAX_UTHREADS) (hring : ring_links MAX_UTHREADS s.threads)
    (hcur : s.current_thread = some c) (hc : c < MAX_UTHREADS)
    (halone : ∀ (j : Nat) (t : uthread), j ≠ c → s.threads[j]? = some t →
      t.state ≠ tstate.RUNNABLE) :
    ∀ fuel : Nat, MAX_UTHREADS ≤ fuel →
      uthread_yield fuel s
        = some ({ threads := set_slot s.threads c (fun t => { t with state := tstate.RUNNABLE }),
                  current_thread := some c },
                { old_context := c, new_context := c }) := by
  obtain ⟨n, _, ⟨t, hget, hst⟩, hy⟩ := uthread_yield_shape MAX_UTHREADS s c hlen hring hcur hc
  have hn : n = c := by
    by_contra hne
    rw [set_slot_get_other _ _ _ _ hne] at hget
    exact halone n t hne hget hst
  subst hn
  exact hy

theorem exit_flag_fold (ts : List uthread) (n : Nat) :
    (List.range n).foldl
        (fun flag i =>
          match ts[i]? with
          | none => flag
          | some t => if t.state ≠ tstate.FREE then 1 else flag)
        0 = 0 ↔
      ∀ (i : Nat) (t : uthread), i < n → ts[i]? = some t → t.state = tstate.FREE := by
  induction n with
  | zero =>
    simp
  | succ n ih =>
    rw [List.range_succ, List.foldl_append]
    simp only [List.foldl_cons, List.foldl_nil]
    cases hu : ts[n]? with
    | none =>
      simp only []
      rw [ih]
      constructor
      · intro h i t hi hget
        by_cases hin : i = n
        · subst hin
          rw [hu] at hget
          exact Option.noConfusion hget
        · exact h i t (by omega) hget
      · intro h i t hi hget
        exact h i t (by omega) hget
    | some u =>
      simp only []
      by_cases hfr : u.state = tstate.FREE
      · simp only [hfr, ne_eq, not_true_eq_false, if_false]
        rw [ih]
        constructor
        · intro h i t hi hget
          by_cases hin : i = n
          · subst hin
            rw [hu] at hget
            cases hget
            exact hfr
          · exact h i t (by omega) hget
        · intro h i t hi hget
          exact h i t (by omega) hget
      · simp only [ne_eq, hfr, not_false_eq_true, if_true]
        constructor
        · intro h
          exact absurd h (by decide)
        · intro h
          exact absurd (h n u (by omega) hu) hfr

theorem exit_flag_zero_iff (MAX_UTHREADS : Nat) (ts : List uthread) :
    exit_flag MAX_UTHREADS ts = 0 ↔
      ∀ (i : Nat) (t : uthread), i < MAX_UTHREADS → ts[i]? = some t → t.state = tstate.FREE :=
  exit_flag_fold ts MAX_UTHREADS

/-- The rest of `uthread_exit` when every slot is FREE once the current one is
marked: `exit(0)`. -/
theorem exit_resume_all_free (MAX_UTHREADS : Nat) (s : State) (c : Nat)
    (hlen : s.threads.length = MAX_UTHREADS)
    (hcur : s.current_thread = some c) (hc : c < MAX_UTHREADS)
    (hall : ∀ (i : Nat) (t : uthread), i < MAX_UTHREADS →
      (set_slot s.threads c (fun t => { t with state := tstate.FREE }))[i]? = some t →
      t.state = tstate.FREE) :
    uthread_exit_resume MAX_UTHREADS s
      = some ({ s with threads := set_slot s.threads c (fun t => { t with state := tstate.FREE }) },
              exit_outcome.exited 0) := by
  obtain ⟨cur, hcurget⟩ := slot_of_lt s.threads c (by omega)
  have hflag := (exit_flag_zero_iff MAX_UTHREADS _).mpr hall
  simp [uthread_exit_resume, uthread_self, hcur, hcurget, hflag]

/-- The rest of `uthread_exit` when some slot is not FREE once the current one
is marked: the function returns to its caller. -/
theorem exit_resume_some_busy (MAX_UTHREADS : Nat) (s : State) (c : Nat)
    (hlen : s.threads.length = MAX_UTHREADS)
    (hcur : s.current_thread = some c) (hc : c < MAX_UTHREADS)
    (hbusy : ∃ (i : Nat) (t : uthread), i < MAX_UTHREADS ∧
      (set_slot s.threads c (fun t => { t with state := tstate.FREE }))[i]? = some t ∧
      t.state ≠ tstate.FREE) :
    uthread_exit_resume MAX_UTHREADS s
      = some ({ s with threads := set_slot s.threads c (fun t => { t with state := tstate.FREE }) },
              exit_outcome.returned) := by
  obtain ⟨cur, hcurget⟩ := slot_of_lt s.threads c (by omega)
  have hflag : exit_flag MAX_UTHREADS
      (set_slot s.threads c (fun t => { t with state := tstate.FREE })) ≠ 0 := by
    intro h0
    obtain ⟨i, t, hi, hget, hst⟩ := hbusy
    exact hst ((exit_flag_zero_iff MAX_UTHREADS _).mp h0 i t hi hget)
  simp [uthread_exit_resume, uthread_self, hcur, hcurget, hflag]

/-- C6, as stated, fails: after two slots were initialised, one thread was
created in slot 0 and made current, `uthread_yield` selects slot 0 and leaves
no slot RUNNING; the selected slot is RUNNABLE. -/
theorem yield_leaves_no_running_slot :
    ∃ r : State × swap_call,
      uthread_yield 2 (started 0 sample_one_of_two) = some r ∧
      ¬ (running_count r.1 = 1 ∧ current_state r.1 = some tstate.RUNNING) :=
  ⟨_, rfl, by decide⟩

/-- At the call of `uswtch` made by one `uthread_yield` on the ring, the slot
just selected is RUNNABLE, and the call has made no slot RUNNING: a slot that
is RUNNING then is not the yielding slot and was RUNNING before, so that no
slot is RUNNING then when none was before. -/
theorem uthread_yield_current_is_runnable (MAX_UTHREADS : Nat) (s : State) (c : Nat)
    (hlen : s.threads.length = MAX_UTHREADS) (hring : ring_links MAX_UTHREADS s.threads)
    (hcur : s.current_thread = some c) (hc : c < MAX_UTHREADS) :
    ∃ r : State × swap_call,
      (∀ fuel : Nat, MAX_UTHREADS ≤ fuel → uthread_yield fuel s = some r) ∧
      current_state r.1 = some tstate.RUNNABLE ∧
      (∀ (j : Nat) (t : uthread), r.1.threads[j]? = some t → t.state = tstate.RUNNING →
        j ≠ c ∧ s.threads[j]? = some t) ∧
      (running_count s = 0 → running_count r.1 = 0) := by
  obtain ⟨n, _, ⟨t, hget, hst⟩, hy⟩ := uthread_yield_shape MAX_UTHREADS s c hlen hring hcur hc
  obtain ⟨cur, hcurget⟩ := slot_of_lt s.threads c (by omega)
  have hpoint : ∀ (j : Nat) (u : uthread),
      (set_slot s.threads c (fun t => { t with state := tstate.RUNNABLE }))[j]? = some u →
      u.state = tstate.RUNNING → j ≠ c ∧ s.threads[j]? = some u := by
    intro j u hu hrun
    by_cases hjc : j = c
    · subst hjc
      rw [set_slot_get_same, hcurget] at hu
      simp only [Option.map_some'] at hu
      cases hu
      exact tstate.noConfusion hrun
    · rw [set_slot_get_other _ _ _ _ hjc] at hu
      exact ⟨hjc, hu⟩
  refine ⟨_, hy, ?_, hpoint, ?_⟩
  · simp [current_state, hget, hst]
  · intro h0
    simp only [running_count, List.countP_eq_zero, decide_eq_true_eq] at h0 ⊢
    intro u hu hrun
    obtain ⟨j, hj⟩ := List.mem_iff_getElem?.mp hu
    obtain ⟨_, hsj⟩ := hpoint j u hj hrun
    exact h0 u (List.getElem?_mem hsj) hrun

/-- C7: when the calling thread resumes inside `uthread_exit` with the current
slot `c`, the function sets the state of slot `c` to FREE and then either calls
`exit(0)` or returns; it calls `exit(0)` exactly when every slot of the table
is FREE at that point, and it returns when some slot is not FREE. -/
theorem uthread_exit_resume_exits_iff_all_free (MAX_UTHREADS : Nat) (s : State) (c : Nat)
    (hlen : s.threads.length = MAX_UTHREADS)
    (hcur : s.current_thread = some c) (hc : c < MAX_UTHREADS) :
    ∃ o : exit_outcome,
      uthread_exit_resume MAX_UTHREADS s
        = some ({ s with
                  threads := set_slot s.threads c (fun t => { t with state := tstate.FREE }) },
                o) ∧
      (o = exit_outcome.exited 0 ∨ o = exit_outcome.returned) ∧
      (o = exit_outcome.exited 0 ↔
        ∀ (i : Nat) (t : uthread), i < MAX_UTHREADS →
          (set_slot s.threads c (fun t => { t with state := tstate.FREE }))[i]? = some t →
          t.state = tstate.FREE) ∧
      ((∃ (i : Nat) (t : uthread), i < MAX_UTHREADS ∧
          (set_slot s.threads c (fun t => { t with state := tstate.FREE }))[i]? = some t ∧
          t.state ≠ tstate.FREE) →
        o = exit_outcome.returned) := by
  by_cases hall : ∀ (i : Nat) (t : uthread), i < MAX_UTHREADS →
      (set_slot s.threads c (fun t => { t with state := tstate.FREE }))[i]? = some t →
      t.state = tstate.FREE
  · refine ⟨exit_outcome.exited 0,
      exit_resume_all_free MAX_UTHREADS s c hlen hcur hc hall, Or.inl rfl, ?_, ?_⟩
    · exact ⟨fun _ => hall, fun _ => rfl⟩
    · intro hbusy
      obtain ⟨i, t, hi, hget, hst⟩ := hbusy
      exact absurd (hall i t hi hget) hst
  · have hbusy : ∃ (i : Nat) (t : uthread), i < MAX_UTHREADS ∧
        (set_slot s.threads c (fun t => { t with state := tstate.FREE }))[i]? = some t ∧
        t.state ≠ tstate.FREE := by
      by_contra hno
      apply hall
      intro i t hi hget
      by_contra hst
      exact hno ⟨i, t, hi, hget, hst⟩
    refine ⟨exit_outcome.returned,
      exit_resume_some_busy MAX_UTHREADS s c hlen hcur hc hbusy, Or.inr rfl, ?_, ?_⟩
    · constructor
      · intro h
        exact exit_outcome.noConfusion h
      · intro h
        exact absurd h hall
    · intro _
      rfl

/-- The statement of C7 at a table of two slots in which only slot 0 is taken and
current. -/
theorem uthread_exit_resume_exits_iff_all_free_witness :
    ∃ o : exit_outcome,
      uthread_exit_resume 2 (started 0 sample_one_of_two)
        = some ({ (started 0 sample_one_of_two) with
                  threads := set_slot (started 0 sample_one_of_two).threads 0 (fun t => { t with state := tstate.FREE }) },
                o) ∧
      (o = exit_outcome.exited 0 ∨ o = exit_outcome.returned) ∧
      (o = exit_outcome.exited 0 ↔
        ∀ (i : Nat) (t : uthread), i < 2 →
          (set_slot (started 0 sample_one_of_two).threads 0 (fun t => { t with state := tstate.FREE }))[i]? = some t →
          t.state = tstate.FREE) ∧
      ((∃ (i : Nat) (t : uthread), i < 2 ∧
          (set_slot (started 0 sample_one_of_two).threads 0 (fun t => { t with state := tstate.FREE }))[i]? = some t ∧
          t.state ≠ tstate.FREE) →
        o = exit_outcome.returned) :=
  uthread_exit_resume_exits_iff_all_free 2 (started 0 sample_one_of_two) 0 (by decide) rfl
    (by decide)

/-- A thread that calls `uthread_exit` while every other slot is FREE: the
yield inside selects the calling slot, `uswtch` comes back at once, the slot is
marked FREE and `exit(0)` is called. -/
theorem uthread_exit_alone (MAX_UTHREADS : Nat) (live : context) (s : State) (c : Nat)
    (hlen : s.threads.length = MAX_UTHREADS) (hring : ring_links MAX_UTHREADS s.threads)
    (hcur : s.current_thread = some c) (hc : c < MAX_UTHREADS)
    (hfree : ∀ (j : Nat) (t : uthread), j ≠ c → s.threads[j]? = some t →
      t.state = tstate.FREE) :
    uthread_exit MAX_UTHREADS MAX_UTHREADS live s
      = some (exit_result.finished
          { threads :=
              set_slot
                (set_slot (set_slot s.threads c (fun t => { t with state := tstate.RUNNABLE })) c
                  (fun t => { t with context := live }))
                c (fun t => { t with state := tstate.FREE }),
            current_thread := some c }
          (exit_outcome.exited 0)) := by
  have hy := uthread_yield_alone MAX_UTHREADS s c hlen hring hcur hc
    (fun j t hj hget hst => by
      rw [hfree j t hj hget] at hst
      exact tstate.noConfusion hst)
    MAX_UTHREADS (Nat.le_refl _)
  have hres := exit_resume_all_free MAX_UTHREADS
    { threads := set_slot (set_slot s.threads c (fun t => { t with state := tstate.RUNNABLE })) c
        (fun t => { t with context := live }),
      current_thread := some c } c
    (by simp only [set_slot_length]; exact hlen) rfl hc
    (by
      intro i t _ hget
      by_cases hic : i = c
      · subst hic
        rw [set_slot_get_same] at hget
        cases hu : (set_slot (set_slot s.threads i (fun t => { t with state := tstate.RUNNABLE })) i
            (fun t => { t with context := live }))[i]? with
        | none => rw [hu] at hget; exact Option.noConfusion hget
        | some u =>
          rw [hu] at hget
          simp only [Option.map_some'] at hget
          cases hget
          rfl
      · rw [set_slot_get_other _ _ _ _ hic, set_slot_get_other _ _ _ _ hic,
          set_slot_get_other _ _ _ _ hic] at hget
        exact hfree i t hic hget)
  simp only [uthread_exit, hy, uswtch, if_true, hres]

/-- C8: after `init_uthreads` and one `uthread_create`, with the created
thread (slot 0) current, a call of `uthread_exit` by that thread runs as
follows: the yield inside selects slot 0 again, slot 0 (as every slot) ends
FREE, and the process exits with status 0. -/
theorem single_thread_exit_terminates (MAX_UTHREADS STACK_SIZE start_func : Nat)
    (priority : sched_priority) (live : context) (s0 : State)
    (hpos : 0 < MAX_UTHREADS) (hlen : s0.threads.length = MAX_UTHREADS) :
    (∃ s1 : State,
      uthread_yield MAX_UTHREADS
          (started 0 (uthread_create MAX_UTHREADS STACK_SIZE start_func priority
            (init_uthreads MAX_UTHREADS s0)).1)
        = some (s1, { old_context := 0, new_context := 0 })) ∧
    (∃ s3 : State,
      uthread_exit MAX_UTHREADS MAX_UTHREADS live
          (started 0 (uthread_create MAX_UTHREADS STACK_SIZE start_func priority
            (init_uthreads MAX_UTHREADS s0)).1)
        = some (exit_result.finished s3 (exit_outcome.exited 0)) ∧
      (s3.threads[0]?).map uthread.state = some tstate.FREE ∧
      (∀ (i : Nat) (t : uthread), s3.threads[i]? = some t → t.state = tstate.FREE)) ∧
    (∃ sys : System,
      run MAX_UTHREADS STACK_SIZE
          (boot (started 0 (uthread_create MAX_UTHREADS STACK_SIZE start_func priority
            (init_uthreads MAX_UTHREADS s0)).1))
          [Op.exit live]
        = some sys ∧ sys.status = some 0) := by
  have hinit := init_uthreads_filled MAX_UTHREADS s0 hlen
  have hcreate := create_at_filled MAX_UTHREADS STACK_SIZE start_func priority
    (init_uthreads MAX_UTHREADS s0) 0 hpos hinit
  have hilen : (init_uthreads MAX_UTHREADS s0).threads.length = MAX_UTHREADS := by
    rw [init_uthreads_length]; exact hlen
  have hlen1 : (started 0 (uthread_create MAX_UTHREADS STACK_SIZE start_func priority
      (init_uthreads MAX_UTHREADS s0)).1).threads.length = MAX_UTHREADS := by
    simp only [started, hcreate, set_slot_length]
    exact hilen
  have hring1 : ring_links MAX_UTHREADS
      (started 0 (uthread_create MAX_UTHREADS STACK_SIZE start_func priority
        (init_uthreads MAX_UTHREADS s0)).1).threads :=
    ring_links_create MAX_UTHREADS STACK_SIZE start_func priority _
      (ring_links_init MAX_UTHREADS s0 hlen)
  have hfree1 : ∀ (j : Nat) (t : uthread), j ≠ 0 →
      (started 0 (uthread_create MAX_UTHREADS STACK_SIZE start_func priority
        (init_uthreads MAX_UTHREADS s0)).1).threads[j]? = some t → t.state = tstate.FREE := by
    intro j t hj hget
    simp only [started, hcreate] at hget
    rw [set_slot_get_other _ _ _ _ hj] at hget
    have hjN : j < MAX_UTHREADS := by
      have := lt_of_slot _ j t hget
      omega
    obtain ⟨u, hu, hst⟩ := hinit.2 j (Nat.zero_le _) hjN
    rw [hu] at hget
    cases hget
    exact hst
  have hexit := uthread_exit_alone MAX_UTHREADS live _ 0 hlen1 hring1 rfl hpos hfree1
  refine ⟨?_, ?_, ?_⟩
  · exact ⟨_, uthread_yield_alone MAX_UTHREADS _ 0 hlen1 hring1 rfl hpos
      (fun j t hj hget hst => by
        rw [hfree1 j t hj hget] at hst
        exact tstate.noConfusion hst)
      MAX_UTHREADS (Nat.le_refl _)⟩
  · refine ⟨_, hexit, ?_, ?_⟩
    · obtain ⟨t, ht⟩ := slot_of_lt _ 0 (by rw [hlen1]; exact hpos)
      simp only [set_slot_get_same, ht, Option.map_some']
    · intro i t hget
      by_cases hi : i = 0
      · subst hi
        rw [set_slot_get_same] at hget
        cases hu : (set_slot (set_slot
            (started 0 (uthread_create MAX_UTHREADS STACK_SIZE start_func priority
              (init_uthreads MAX_UTHREADS s0)).1).threads 0
            (fun t => { t with state := tstate.RUNNABLE })) 0
            (fun t => { t with context := live }))[0]? with
        | none => rw [hu] at hget; exact Option.noConfusion hget
        | some u =>
          rw [hu] at hget
          simp only [Option.map_some'] at hget
          cases hget
          rfl
      · rw [set_slot_get_other _ _ _ _ hi, set_slot_get_other _ _ _ _ hi,
          set_slot_get_other _ _ _ _ hi] at hget
        exact hfree1 i t hi hget
  · obtain ⟨s3, hs3⟩ : ∃ s3 : State,
        uthread_exit MAX_UTHREADS MAX_UTHREADS live
            (started 0 (uthread_create MAX_UTHREADS STACK_SIZE start_func priority
              (init_uthreads MAX_UTHREADS s0)).1)
          = some (exit_result.finished s3 (exit_outcome.exited 0)) := ⟨_, hexit⟩
    refine ⟨{ mem := s3, in_exit := [], status := some 0 }, ?_, rfl⟩
    simp [run, step, boot, hs3, status_of]

/-- The statement of C8 at a table of four slots. -/
theorem single_thread_exit_terminates_witness :
    (∃ s1 : State,
      uthread_yield 4
          (started 0 (uthread_create 4 4000 64 sched_priority.LOW
            (init_uthreads 4 (zeroed_State 8192 4096 4))).1)
        = some (s1, { old_context := 0, new_context := 0 })) ∧
    (∃ s3 : State,
      uthread_exit 4 4 sample_live
          (started 0 (uthread_create 4 4000 64 sched_priority.LOW
            (init_uthreads 4 (zeroed_State 8192 4096 4))).1)
        = some (exit_result.finished s3 (exit_outcome.exited 0)) ∧
      (s3.threads[0]?).map uthread.state = some tstate.FREE ∧
      (∀ (i : Nat) (t : uthread), s3.threads[i]? = some t → t.state = tstate.FREE)) ∧
    (∃ sys : System,
      run 4 4000
          (boot (started 0 (uthread_create 4 4000 64 sched_priority.LOW
            (init_uthreads 4 (zeroed_State 8192 4096 4))).1))
          [Op.exit sample_live]
        = some sys ∧ sys.status = some 0) :=
  single_thread_exit_terminates 4 4000 64 sched_priority.LOW sample_live
    (zeroed_State 8192 4096 4) (by decide) (by decide)

/-- C9 fails on the code. Two threads are created in a table of four slots and
the first (slot 0) is current. Its `uthread_exit` hands control to slot 1 and
the process goes on, slot 0 still RUNNABLE and suspended inside `uthread_exit`.
The `uthread_exit` of the second thread then switches back to slot 0, where the
rest of the first `uthread_exit` marks slot 0 FREE, finds slot 1 RUNNABLE and
returns: the process has not exited, and the executing slot is slot 0. -/
theorem second_exit_does_not_terminate :
    (run 4 4000 (boot sample_two_of_four) [Op.exit sample_live]).map
        (fun sys =>
          (sys.status, sys.mem.current_thread, sys.mem.threads.map uthread.state, sys.in_exit))
      = some (none, some 1,
          [tstate.RUNNABLE, tstate.RUNNABLE, tstate.FREE, tstate.FREE], [0]) ∧
    (run 4 4000 (boot sample_two_of_four) [Op.exit sample_live, Op.exit sample_live]).map
        (fun sys =>
          (sys.status, sys.mem.current_thread, sys.mem.threads.map uthread.state, sys.in_exit))
      = some (none, some 0,
          [tstate.FREE, tstate.RUNNABLE, tstate.FREE, tstate.FREE], [1]) :=
  ⟨rfl, rfl⟩

/-- C10 fails on the code. In a table of two slots with two threads, the thread
of slot 0 calls `uthread_exit` while slot 1 is RUNNABLE: control passes to
slot 1 and slot 0 stays RUNNABLE. When slot 1 yields, slot 0 is selected and
continues inside `uthread_exit`: it marks slot 0 FREE, and the function returns
to its caller with the current-thread pointer on slot 0, the FREE slot. -/
theorem exit_returns_to_caller_on_freed_slot :
    ∃ s1 s2 s3 : State,
      uthread_exit 2 2 sample_live sample_two_of_two
        = some (exit_result.switched s1 { old_context := 0, new_context := 1 }) ∧
      s1.threads.map uthread.state = [tstate.RUNNABLE, tstate.RUNNABLE] ∧
      uthread_yield 2 s1 = some (s2, { old_context := 1, new_context := 0 }) ∧
      uthread_exit_resume 2 (uswtch sample_live { old_context := 1, new_context := 0 } s2)
        = some (s3, exit_outcome.returned) ∧
      s3.current_thread = some 0 ∧
      s3.threads.map uthread.state = [tstate.FREE, tstate.RUNNABLE] :=
  ⟨_, _, _, rfl, rfl, rfl, rfl, rfl, rfl⟩

/-! ## uthread_start_all -/

/-- C11 fails on the code. With two threads created and slot 0 already
current, `uthread_start_all` leaves the globals as they are but returns no
value: its body is empty, so the caller does not receive -1. -/
theorem start_all_again_returns_no_value :
    sample_two_of_four.current_thread = some 0 ∧
    (uthread_start_all sample_two_of_four).globals = sample_two_of_four ∧
    (uthread_start_all sample_two_of_four).value = none ∧
    (uthread_start_all sample_two_of_four).value ≠ some (-1) :=
  ⟨rfl, rfl, rfl, by decide⟩

/-- C12 fails on the code. After `init_uthreads` and one `uthread_create`
(slot 0 RUNNABLE, current-thread pointer null), `uthread_start_all` leaves the
current-thread pointer null and does not call `uswtch`: slot 0 is not
started. -/
theorem start_all_starts_nothing :
    sample_one_of_two.current_thread = none ∧
    sample_one_of_two.threads.map uthread.state = [tstate.RUNNABLE, tstate.FREE] ∧
    (uthread_start_all sample_one_of_two).globals.current_thread = none ∧
    (uthread_start_all sample_one_of_two).restored = none :=
  ⟨rfl, rfl, rfl, rfl⟩

/-! ## Priority accessors -/

/-- C13: with the current-thread pointer on slot `c`, `uthread_set_priority p`
returns the priority slot `c` had before the call, a `uthread_get_priority`
made next returns `p`, and the call changes nothing but the priority field of
slot `c`: the other fields of slot `c`, every other slot, the number of slots
and the current-thread pointer are as before. -/
theorem set_priority_round_trip (priority : sched_priority) (s : State) (c : Nat)
    (t : uthread) (hcur : s.current_thread = some c) (hget : s.threads[c]? = some t) :
    ∃ s1 : State,
      uthread_set_priority priority s = some (s1, t.priority) ∧
      uthread_get_priority s1 = some priority ∧
      s1.current_thread = s.current_thread ∧
      s1.threads[c]? = some { t with priority := priority } ∧
      (∀ j : Nat, j ≠ c → s1.threads[j]? = s.threads[j]?) ∧
      s1.threads.length = s.threads.length := by
  refine ⟨{ s with threads := set_slot s.threads c (fun u => { u with priority := priority }) },
    ?_, ?_, rfl, ?_, ?_, ?_⟩
  · simp [uthread_set_priority, uthread_self, hcur, hget]
  · simp [uthread_get_priority, uthread_self, hcur, set_slot_get_same, hget]
  · simp [set_slot_get_same, hget]
  · intro j hj
    exact set_slot_get_other _ _ _ _ hj
  · exact set_slot_length _ _ _

/-- The statement of C13 at a table of four slots with two threads, slot 0
current with priority LOW, for the new priority HIGH. -/
theorem set_priority_round_trip_witness :
    ∃ s1 : State,
      uthread_set_priority sched_priority.HIGH sample_two_of_four
        = some (s1, sched_priority.LOW) ∧
      uthread_get_priority s1 = some sched_priority.HIGH ∧
      s1.current_thread = sample_two_of_four.current_thread ∧
      (s1.threads[0]?).map uthread.priority = some sched_priority.HIGH ∧
      (∀ j : Nat, j ≠ 0 → s1.threads[j]? = sample_two_of_four.threads[j]?) ∧
      s1.threads.length = sample_two_of_four.threads.length := by
  obtain ⟨s1, h1, h2, h3, h4, h5, h6⟩ :=
    set_priority_round_trip sched_priority.HIGH sample_two_of_four 0
      { ustack := 8192, state := tstate.RUNNABLE,
        context := { ra := 64, sp := 12192, callee_saved := [] },
        priority := sched_priority.LOW, next_thread := some 1 }
      rfl rfl
  exact ⟨s1, h1, h2, h3, by rw [h4]; rfl, h5, h6⟩

/-! ## The ring built by init_uthreads -/

theorem mod_add_cancel (n i a b : Nat) (ha : a < n) (hb : b < n)
    (h : (i + a) % n = (i + b) % n) : a = b := by
  have h1 : i + a ≡ i + b [MOD n] := h
  exact Nat.ModEq.eq_of_lt_of_lt (Nat.ModEq.add_left_cancel' i h1) ha hb

/-- On a ring of `MAX_UTHREADS` slots, `k` successor steps from slot `i` lead
to slot `(i + k) % MAX_UTHREADS`. -/
theorem follow_ring (MAX_UTHREADS : Nat) (ts : List uthread)
    (hlen : ts.length = MAX_UTHREADS) (hring : ring_links MAX_UTHREADS ts) :
    ∀ (k i : Nat), i < MAX_UTHREADS →
      follow ts k (some i) = some ((i + k) % MAX_UTHREADS) := by
  intro k
  induction k with
  | zero =>
    intro i hi
    simp [follow, Nat.mod_eq_of_lt hi]
  | succ k ih =>
    intro i hi
    obtain ⟨t, hget⟩ := slot_of_lt ts i (by omega)
    have hnext := hring i t hget
    have hpos : 0 < MAX_UTHREADS := by omega
    have hrec := ih ((i + 1) % MAX_UTHREADS) (Nat.mod_lt _ hpos)
    have hshift : ((i + 1) % MAX_UTHREADS + k) % MAX_UTHREADS = (i + (k + 1)) % MAX_UTHREADS := by
      rw [Nat.mod_add_mod]
      congr 1
      omega
    rw [hshift] at hrec
    simp [follow, hget, hnext, hrec]

/-- C14: after `init_uthreads` on a table of `MAX_UTHREADS` slots the
current-thread pointer is null, every slot is FREE and has slot
`(i + 1) % MAX_UTHREADS` as successor, and the links form one cycle over all
slots: from every slot `i`, `MAX_UTHREADS` successor steps lead back to `i`,
and the slots reached after `a` and after `b` steps, for different
`a, b < MAX_UTHREADS`, are different. -/
theorem init_uthreads_ring (MAX_UTHREADS : Nat) (s : State)
    (hlen : s.threads.length = MAX_UTHREADS) :
    (init_uthreads MAX_UTHREADS s).current_thread = none ∧
    (init_uthreads MAX_UTHREADS s).threads.length = MAX_UTHREADS ∧
    (∀ i : Nat, i < MAX_UTHREADS →
      ∃ t : uthread, (init_uthreads MAX_UTHREADS s).threads[i]? = some t ∧
        t.state = tstate.FREE ∧ t.next_thread = some ((i + 1) % MAX_UTHREADS)) ∧
    (∀ i : Nat, i < MAX_UTHREADS →
      follow (init_uthreads MAX_UTHREADS s).threads MAX_UTHREADS (some i) = some i) ∧
    (∀ i a b : Nat, i < MAX_UTHREADS → a < MAX_UTHREADS → b < MAX_UTHREADS →
      follow (init_uthreads MAX_UTHREADS s).threads a (some i)
        = follow (init_uthreads MAX_UTHREADS s).threads b (some i) →
      a = b) := by
  have hilen : (init_uthreads MAX_UTHREADS s).threads.length = MAX_UTHREADS := by
    rw [init_uthreads_length]; exact hlen
  have hring := ring_links_init MAX_UTHREADS s hlen
  have hfilled := init_uthreads_filled MAX_UTHREADS s hlen
  refine ⟨rfl, hilen, ?_, ?_, ?_⟩
  · intro i hi
    obtain ⟨t, hget, hst⟩ := hfilled.2 i (Nat.zero_le _) hi
    exact ⟨t, hget, hst, hring i t hget⟩
  · intro i hi
    rw [follow_ring MAX_UTHREADS _ hilen hring MAX_UTHREADS i hi, mod_self_add i _ hi]
  · intro i a b hi ha hb h
    rw [follow_ring MAX_UTHREADS _ hilen hring a i hi,
      follow_ring MAX_UTHREADS _ hilen hring b i hi] at h
    exact mod_add_cancel MAX_UTHREADS i a b ha hb (Option.some.inj h)

/-- The statement of C14 at a table of four slots. -/
theorem init_uthreads_ring_witness :
    (init_uthreads 4 (zeroed_State 8192 4096 4)).current_thread = none ∧
    (init_uthreads 4 (zeroed_State 8192 4096 4)).threads.length = 4 ∧
    (∀ i : Nat, i < 4 →
      ∃ t : uthread, (init_uthreads 4 (zeroed_State 8192 4096 4)).threads[i]? = some t ∧
        t.state = tstate.FREE ∧ t.next_thread = some ((i + 1) % 4)) ∧
    (∀ i : Nat, i < 4 →
      follow (init_uthreads 4 (zeroed_State 8192 4096 4)).threads 4 (some i) = some i) ∧
    (∀ i a b : Nat, i < 4 → a < 4 → b < 4 →
      follow (init_uthreads 4 (zeroed_State 8192 4096 4)).threads a (some i)
        = follow (init_uthreads 4 (zeroed_State 8192 4096 4)).threads b (some i) →
      a = b) :=
  init_uthreads_ring 4 (zeroed_State 8192 4096 4) (by decide)

/-! ## What every library call keeps

`K` is a property of the table that survives every assignment the library
makes to a slot; the lemmas below carry it through each operation, then
through a step and a run of the threads. -/

theorem create_keeps (MAX_UTHREADS STACK_SIZE start_func : Nat) (priority : sched_priority)
    (K : List uthread → Prop)
    (hK : ∀ ts i f, library_update f → K ts → K (set_slot ts i f))
    (s : State) (h : K s.threads) :
    K (uthread_create MAX_UTHREADS STACK_SIZE start_func priority s).1.threads := by
  rcases create_loop_shape STACK_SIZE start_func priority s.threads MAX_UTHREADS 0 with e | ⟨i, e⟩
  · simp only [uthread_create, e]
    exact h
  · simp only [uthread_create, e]
    exact hK _ _ _ (fun t => ⟨rfl, fun _ hr => tstate.noConfusion hr⟩) h

theorem yield_keeps (K : List uthread → Prop)
    (hK : ∀ ts i f, library_update f → K ts → K (set_slot ts i f))
    (fuel : Nat) (s : State) (r : State × swap_call) (h : K s.threads)
    (hy : uthread_yield fuel s = some r) : K r.1.threads := by
  unfold uthread_yield at hy
  split at hy
  · exact Option.noConfusion hy
  · split at hy
    · exact Option.noConfusion hy
    · dsimp only at hy
      split at hy
      · exact Option.noConfusion hy
      · cases hy
        exact hK _ _ _ (fun t => ⟨rfl, fun _ hr => tstate.noConfusion hr⟩) h

theorem uswtch_keeps (K : List uthread → Prop)
    (hK : ∀ ts i f, library_update f → K ts → K (set_slot ts i f))
    (live : context) (call : swap_call) (s : State) (h : K s.threads) :
    K (uswtch live call s).threads :=
  hK _ _ _ (fun _ => ⟨rfl, fun hn => hn⟩) h

theorem exit_resume_keeps (MAX_UTHREADS : Nat) (K : List uthread → Prop)
    (hK : ∀ ts i f, library_update f → K ts → K (set_slot ts i f))
    (s : State) (r : State × exit_outcome) (h : K s.threads)
    (hr : uthread_exit_resume MAX_UTHREADS s = some r) : K r.1.threads := by
  unfold uthread_exit_resume at hr
  split at hr
  · exact Option.noConfusion hr
  · split at hr
    · exact Option.noConfusion hr
    · dsimp only at hr
      split at hr
      · cases hr
        exact hK _ _ _ (fun t => ⟨rfl, fun _ hr => tstate.noConfusion hr⟩) h
      · cases hr
        exact hK _ _ _ (fun t => ⟨rfl, fun _ hr => tstate.noConfusion hr⟩) h

theorem set_priority_keeps (K : List uthread → Prop)
    (hK : ∀ ts i f, library_update f → K ts → K (set_slot ts i f))
    (priority : sched_priority) (s : State) (r : State × sched_priority) (h : K s.threads)
    (hp : uthread_set_priority priority s = some r) : K r.1.threads := by
  unfold uthread_set_priority at hp
  split at hp
  · exact Option.noConfusion hp
  · split at hp
    · exact Option.noConfusion hp
    · cases hp
      exact hK _ _ _ (fun _ => ⟨rfl, fun hn => hn⟩) h

theorem exit_keeps (MAX_UTHREADS : Nat) (K : List uthread → Prop)
    (hK : ∀ ts i f, library_update f → K ts → K (set_slot ts i f))
    (fuel : Nat) (live : context) (s : State) (h : K s.threads) :
    (∀ (m : State) (call : swap_call),
      uthread_exit MAX_UTHREADS fuel live s = some (exit_result.switched m call) →
      K m.threads) ∧
    (∀ (m : State) (o : exit_outcome),
      uthread_exit MAX_UTHREADS fuel live s = some (exit_result.finished m o) →
      K m.threads) := by
  constructor
  · intro m call he
    unfold uthread_exit at he
    split at he
    · exact Option.noConfusion he
    · rename_i s1 call1 hy
      have h1 := yield_keeps K hK fuel s (s1, call1) h hy
      have h2 := uswtch_keeps K hK live call1 s1 h1
      simp only at he
      split at he
      · split at he
        · exact Option.noConfusion he
        · cases he
      · cases he
        exact h2
  · intro m o he
    unfold uthread_exit at he
    split at he
    · exact Option.noConfusion he
    · rename_i s1 call1 hy
      have h1 := yield_keeps K hK fuel s (s1, call1) h hy
      have h2 := uswtch_keeps K hK live call1 s1 h1
      simp only at he
      split at he
      · split at he
        · exact Option.noConfusion he
        · rename_i s3 o3 hr
          cases he
          exact exit_resume_keeps MAX_UTHREADS K hK _ (m, o) h2 hr
      · cases he

theorem after_switch_keeps (MAX_UTHREADS : Nat) (K : List uthread → Prop)
    (hK : ∀ ts i f, library_update f → K ts → K (set_slot ts i f))
    (sys sys1 : System) (call : swap_call) (h : K sys.mem.threads)
    (ha : after_switch MAX_UTHREADS sys call = some sys1) : K sys1.mem.threads := by
  unfold after_switch at ha
  split at ha
  · split at ha
    · exact Option.noConfusion ha
    · rename_i m o hr
      cases ha
      exact exit_resume_keeps MAX_UTHREADS K hK sys.mem (m, o) h hr
  · cases ha
    exact h

theorem step_keeps (MAX_UTHREADS STACK_SIZE : Nat) (K : List uthread → Prop)
    (hK : ∀ ts i f, library_update f → K ts → K (set_slot ts i f))
    (sys sys1 : System) (op : Op) (h : K sys.mem.threads)
    (hs : step MAX_UTHREADS STACK_SIZE sys op = some sys1) : K sys1.mem.threads := by
  unfold step at hs
  split at hs
  · cases hs
    exact h
  · cases op with
    | create start_func priority =>
      simp only at hs
      cases hs
      exact create_keeps MAX_UTHREADS STACK_SIZE start_func priority K hK sys.mem h
    | yield live =>
      simp only at hs
      split at hs
      · exact Option.noConfusion hs
      · rename_i m call hy
        have h1 := yield_keeps K hK MAX_UTHREADS sys.mem (m, call) h hy
        have h2 := uswtch_keeps K hK live call m h1
        exact after_switch_keeps MAX_UTHREADS K hK _ sys1 call h2 hs
    | exit live =>
      simp only at hs
      have hex := exit_keeps MAX_UTHREADS K hK MAX_UTHREADS live sys.mem h
      split at hs
      · exact Option.noConfusion hs
      · rename_i m o he
        cases hs
        exact hex.2 m o he
      · rename_i m call he
        exact after_switch_keeps MAX_UTHREADS K hK _ sys1 call (hex.1 m call he) hs
    | set_priority priority =>
      simp only at hs
      split at hs
      · exact Option.noConfusion hs
      · rename_i m old hp
        cases hs
        exact set_priority_keeps K hK priority sys.mem (m, old) h hp

theorem run_keeps (MAX_UTHREADS STACK_SIZE : Nat) (K : List uthread → Prop)
    (hK : ∀ ts i f, library_update f → K ts → K (set_slot ts i f)) :
    ∀ (ops : List Op) (sys sys1 : System), K sys.mem.threads →
      run MAX_UTHREADS STACK_SIZE sys ops = some sys1 → K sys1.mem.threads := by
  intro ops
  induction ops with
  | nil =>
    intro sys sys1 h hr
    simp only [run] at hr
    cases hr
    exact h
  | cons op ops ih =>
    intro sys sys1 h hr
    simp only [run] at hr
    split at hr
    · exact Option.noConfusion hr
    · rename_i sys2 hs
      exact ih sys2 sys1 (step_keeps MAX_UTHREADS STACK_SIZE K hK sys sys2 op h hs) hr

theorem set_slot_mem (ts : List uthread) (i : Nat) (f : uthread → uthread) (t : uthread)
    (h : t ∈ set_slot ts i f) : t ∈ ts ∨ ∃ u ∈ ts, t = f u := by
  obtain ⟨j, hj⟩ := List.mem_iff_getElem?.mp h
  by_cases hji : j = i
  · subst hji
    rw [set_slot_get_same] at hj
    cases hu : ts[j]? with
    | none => rw [hu] at hj; exact Option.noConfusion hj
    | some u =>
      rw [hu] at hj
      simp only [Option.map_some'] at hj
      cases hj
      exact Or.inr ⟨u, List.getElem?_mem hu, rfl⟩
  · rw [set_slot_get_other _ _ _ _ hji] at hj
    exact Or.inl (List.getElem?_mem hj)

theorem set_slot_links (ts : List uthread) (i : Nat) (f : uthread → uthread)
    (hf : ∀ t, (f t).next_thread = t.next_thread) :
    links (set_slot ts i f) = links ts := by
  induction ts generalizing i with
  | nil => rfl
  | cons t ts ih =>
    cases i with
    | zero => simp [set_slot, links, hf]
    | succ i =>
      have := ih i
      simp only [links] at this
      simp [set_slot, links, this]

theorem no_running_set_slot (ts : List uthread) (i : Nat) (f : uthread → uthread)
    (hf : library_update f) (h : no_running ts) : no_running (set_slot ts i f) := by
  intro t ht
  rcases set_slot_mem ts i f t ht with hm | ⟨u, hu, rfl⟩
  · exact h t hm
  · exact (hf u).2 (h u hu)

theorem init_no_running (MAX_UTHREADS : Nat) (s : State)
    (hlen : s.threads.length = MAX_UTHREADS) :
    no_running (init_uthreads MAX_UTHREADS s).threads := by
  intro t ht hrun
  obtain ⟨i, hi⟩ := List.mem_iff_getElem?.mp ht
  have hiN : i < MAX_UTHREADS := by
    have := lt_of_slot _ i t hi
    rw [init_uthreads_length] at this
    omega
  obtain ⟨u, hu, hst⟩ := (init_uthreads_filled MAX_UTHREADS s hlen).2 i (Nat.zero_le _) hiN
  rw [hu] at hi
  cases hi
  rw [hst] at hrun
  exact tstate.noConfusion hrun

/-- C17: in every state reached from the table of `init_uthreads` by a
sequence of `uthread_create`, `uthread_yield`, `uthread_exit` and
`uthread_set_priority` calls, whichever slot (if any) was made current at the
start, at most one slot is RUNNING; in fact none is, as no call writes
RUNNING. -/
theorem at_most_one_running (MAX_UTHREADS STACK_SIZE : Nat) (s0 : State) (cur : Option Nat)
    (ops : List Op) (sys : System) (hlen : s0.threads.length = MAX_UTHREADS)
    (hrun : run MAX_UTHREADS STACK_SIZE
      (boot { init_uthreads MAX_UTHREADS s0 with current_thread := cur }) ops = some sys) :
    running_count sys.mem ≤ 1 ∧ running_count sys.mem = 0 := by
  have h := run_keeps MAX_UTHREADS STACK_SIZE no_running no_running_set_slot ops _ sys
    (init_no_running MAX_UTHREADS s0 hlen) hrun
  have h0 : running_count sys.mem = 0 := by
    simp only [running_count, List.countP_eq_zero, decide_eq_true_eq]
    exact h
  exact ⟨by omega, h0⟩

/-- The statement of C17 for a table of two slots with slot 0 made current, two
creations, an exit and two yields. -/
theorem at_most_one_running_witness :
    ∃ sys : System,
      run 2 4000 (boot { init_uthreads 2 (zeroed_State 8192 4096 2) with
        current_thread := some 0 }) sample_ops = some sys ∧
      running_count sys.mem ≤ 1 ∧ running_count sys.mem = 0 :=
  ⟨_, rfl,
    at_most_one_running 2 4000 (zeroed_State 8192 4096 2) (some 0) sample_ops _ (by decide) rfl⟩

/-- C18: the successor links are a frame of every operation but
`init_uthreads`. For every state, `uthread_create`, `uthread_yield` (and the
context save of `uswtch`), `uthread_exit` (whichever way it ends, and its part
after the yield) and `uthread_set_priority` leave the link of every slot as it
was; `uthread_get_priority` only reads. Hence every run of calls keeps the
links, and every state reached from the table of `init_uthreads` has the ring
links and `MAX_UTHREADS` slots. -/
theorem links_frame (MAX_UTHREADS STACK_SIZE : Nat) (s : State) :
    (∀ (start_func : Nat) (priority : sched_priority),
      links (uthread_create MAX_UTHREADS STACK_SIZE start_func priority s).1.threads
        = links s.threads) ∧
    (∀ (fuel : Nat) (r : State × swap_call), uthread_yield fuel s = some r →
      links r.1.threads = links s.threads) ∧
    (∀ (live : context) (call : swap_call),
      links (uswtch live call s).threads = links s.threads) ∧
    (∀ r : State × exit_outcome, uthread_exit_resume MAX_UTHREADS s = some r →
      links r.1.threads = links s.threads) ∧
    (∀ (fuel : Nat) (live : context) (m : State) (call : swap_call),
      uthread_exit MAX_UTHREADS fuel live s = some (exit_result.switched m call) →
      links m.threads = links s.threads) ∧
    (∀ (fuel : Nat) (live : context) (m : State) (o : exit_outcome),
      uthread_exit MAX_UTHREADS fuel live s = some (exit_result.finished m o) →
      links m.threads = links s.threads) ∧
    (∀ (priority : sched_priority) (r : State × sched_priority),
      uthread_set_priority priority s = some r → links r.1.threads = links s.threads) ∧
    (∀ (in_exit : List Nat) (status : Option Int) (ops : List Op) (sys : System),
      run MAX_UTHREADS STACK_SIZE { mem := s, in_exit := in_exit, status := status } ops
        = some sys →
      links sys.mem.threads = links s.threads) ∧
    (∀ (cur : Option Nat) (ops : List Op) (sys : System),
      s.threads.length = MAX_UTHREADS →
      run MAX_UTHREADS STACK_SIZE
        (boot { init_uthreads MAX_UTHREADS s with current_thread := cur }) ops = some sys →
      ring_links MAX_UTHREADS sys.mem.threads ∧ sys.mem.threads.length = MAX_UTHREADS) := by
  have hK : ∀ (ts : List uthread) (i : Nat) (f : uthread → uthread), library_update f →
      (fun l => links l = links s.threads) ts →
      (fun l => links l = links s.threads) (set_slot ts i f) := by
    intro ts i f hf h
    show links (set_slot ts i f) = links s.threads
    rw [set_slot_links ts i f (fun t => (hf t).1)]
    exact h
  refine ⟨?_, ?_, ?_, ?_, ?_, ?_, ?_, ?_, ?_⟩
  · intro start_func priority
    exact create_keeps MAX_UTHREADS STACK_SIZE start_func priority _ hK s rfl
  · intro fuel r hy
    exact yield_keeps _ hK fuel s r rfl hy
  · intro live call
    exact uswtch_keeps _ hK live call s rfl
  · intro r hr
    exact exit_resume_keeps MAX_UTHREADS _ hK s r rfl hr
  · intro fuel live m call he
    exact (exit_keeps MAX_UTHREADS _ hK fuel live s rfl).1 m call he
  · intro fuel live m o he
    exact (exit_keeps MAX_UTHREADS _ hK fuel live s rfl).2 m o he
  · intro priority r hp
    exact set_priority_keeps _ hK priority s r rfl hp
  · intro in_exit status ops sys hr
    exact run_keeps MAX_UTHREADS STACK_SIZE _ hK ops _ sys rfl hr
  · intro cur ops sys hlen hr
    constructor
    · exact run_keeps MAX_UTHREADS STACK_SIZE (ring_links MAX_UTHREADS)
        (fun ts i f hf h => ring_links_mark MAX_UTHREADS ts i f (fun t => (hf t).1) h)
        ops _ sys (ring_links_init MAX_UTHREADS s hlen) hr
    · exact run_keeps MAX_UTHREADS STACK_SIZE (fun l => l.length = MAX_UTHREADS)
        (fun ts i f _ h => by
          show (set_slot ts i f).length = MAX_UTHREADS
          rw [set_slot_length]
          exact h)
        ops _ sys (by
          show (init_uthreads MAX_UTHREADS s).threads.length = MAX_UTHREADS
          rw [init_uthreads_length]
          exact hlen) hr

/-! ## FREE slots and uthread_yield -/

/-- C15 fails on the code. In a table of two slots with two threads, the
thread of slot 0 calls `uthread_exit` and the thread of slot 1 then yields:
slot 0 resumes inside `uthread_exit`, is marked FREE, and goes on executing
because `uthread_exit` returns. Its next `uthread_yield` sets the state of
slot 0, which is FREE, to RUNNABLE: a FREE slot became RUNNABLE without any
`uthread_create`. -/
theorem yield_makes_free_slot_runnable :
    (run 2 4000 (boot sample_two_of_two) [Op.exit sample_live, Op.yield sample_live]).map
        (fun sys => (sys.status, sys.mem.current_thread, sys.mem.threads.map uthread.state))
      = some (none, some 0, [tstate.FREE, tstate.RUNNABLE]) ∧
    (run 2 4000 (boot sample_two_of_two)
        [Op.exit sample_live, Op.yield sample_live, Op.yield sample_live]).map
        (fun sys => (sys.status, sys.mem.current_thread, sys.mem.threads.map uthread.state))
      = some (none, some 1, [tstate.RUNNABLE, tstate.RUNNABLE]) :=
  ⟨rfl, rfl⟩

/-! ## uthread_yield does not read priorities -/

theorem sched_view_of_maps (ts1 ts2 : List uthread)
    (hst : ts1.map uthread.state = ts2.map uthread.state)
    (hln : links ts1 = links ts2) (i : Nat) :
    (ts1[i]?).map sched_view = (ts2[i]?).map sched_view := by
  have h1 : (ts1[i]?).map uthread.state = (ts2[i]?).map uthread.state := by
    rw [← List.getElem?_map, ← List.getElem?_map, hst]
  have h2 : (ts1[i]?).map uthread.next_thread = (ts2[i]?).map uthread.next_thread := by
    have : (links ts1)[i]? = (links ts2)[i]? := by rw [hln]
    simpa [links, List.getElem?_map] using this
  cases e1 : ts1[i]? with
  | none =>
    cases e2 : ts2[i]? with
    | none => rfl
    | some u => rw [e1, e2] at h1; exact Option.noConfusion h1
  | some t =>
    cases e2 : ts2[i]? with
    | none => rw [e1, e2] at h1; exact Option.noConfusion h1
    | some u =>
      rw [e1, e2] at h1 h2
      simp only [Option.map_some', Option.some.injEq] at h1 h2
      simp [sched_view, h1, h2]

/-- Two tables that show the same states and links at every index give the
search loop of `uthread_yield` the same result. -/
theorem yield_loop_congr (ts1 ts2 : List uthread)
    (h : ∀ i : Nat, (ts1[i]?).map sched_view = (ts2[i]?).map sched_view) :
    ∀ (fuel : Nat) (p : Option Nat) (steps : Nat),
      yield_loop ts1 fuel p steps = yield_loop ts2 fuel p steps := by
  intro fuel
  induction fuel with
  | zero => intro p steps; rfl
  | succ fuel ih =>
    intro p steps
    cases p with
    | none => rfl
    | some i =>
      have hi := h i
      cases e1 : ts1[i]? with
      | none =>
        cases e2 : ts2[i]? with
        | none => simp [yield_loop, e1, e2]
        | some u => rw [e1, e2] at hi; exact Option.noConfusion hi
      | some t =>
        cases e2 : ts2[i]? with
        | none => rw [e1, e2] at hi; exact Option.noConfusion hi
        | some u =>
          rw [e1, e2] at hi
          simp only [Option.map_some', Option.some.injEq, sched_view, Prod.mk.injEq] at hi
          simp only [yield_loop, e1, e2, hi.1, hi.2, ih]

/-- Two states with the same current-thread pointer whose tables show the same
states and links give `uthread_yield` the same call of `uswtch` and the same
new current thread. -/
theorem uthread_yield_congr (s1 s2 : State)
    (hcur : s1.current_thread = s2.current_thread)
    (h : ∀ i : Nat, (s1.threads[i]?).map sched_view = (s2.threads[i]?).map sched_view)
    (fuel : Nat) :
    (uthread_yield fuel s1).map (fun r => (r.2, r.1.current_thread))
      = (uthread_yield fuel s2).map (fun r => (r.2, r.1.current_thread)) := by
  cases hc : s2.current_thread with
  | none => simp [uthread_yield, uthread_self, hcur, hc]
  | some c =>
    have hi := h c
    have hmark : ∀ i : Nat,
        ((set_slot s1.threads c (fun t => { t with state := tstate.RUNNABLE }))[i]?).map sched_view
          = ((set_slot s2.threads c (fun t => { t with state := tstate.RUNNABLE }))[i]?).map
              sched_view := by
      intro i
      by_cases hic : i = c
      · subst hic
        rw [set_slot_get_same, set_slot_get_same]
        have := h i
        cases e1 : s1.threads[i]? with
        | none =>
          cases e2 : s2.threads[i]? with
          | none => rfl
          | some u => rw [e1, e2] at this; exact Option.noConfusion this
        | some t =>
          cases e2 : s2.threads[i]? with
          | none => rw [e1, e2] at this; exact Option.noConfusion this
          | some u =>
            rw [e1, e2] at this
            simp only [Option.map_some', Option.some.injEq, sched_view, Prod.mk.injEq] at this
            simp [sched_view, this.2]
      · rw [set_slot_get_other _ _ _ _ hic, set_slot_get_other _ _ _ _ hic]
        exact h i
    cases e1 : s1.threads[c]? with
    | none =>
      cases e2 : s2.threads[c]? with
      | none => simp [uthread_yield, uthread_self, hcur, hc, e1, e2]
      | some u => rw [e1, e2] at hi; exact Option.noConfusion hi
    | some t =>
      cases e2 : s2.threads[c]? with
      | none => rw [e1, e2] at hi; exact Option.noConfusion hi
      | some u =>
        rw [e1, e2] at hi
        simp only [Option.map_some', Option.some.injEq, sched_view, Prod.mk.injEq] at hi
        simp only [uthread_yield, uthread_self, hcur, hc, e1, e2, hi.2]
        rw [yield_loop_congr _ _ hmark fuel u.next_thread 0]
        cases yield_loop (set_slot s2.threads c (fun t => { t with state := tstate.RUNNABLE }))
            fuel u.next_thread 0 with
        | none => rfl
        | some r => rfl

/-- C19: the slot selected by `uthread_yield` does not depend on priorities.
Two states that agree on the current-thread pointer, on the state of every
slot and on every successor link (and may differ in every priority) give
`uthread_yield` the same `uswtch` call and the same new current thread, for
every fuel; and with the ring links and a current slot `c` of the table, both
calls do select a slot, the same one. -/
theorem yield_ignores_priority (MAX_UTHREADS : Nat) (s1 s2 : State)
    (hcur : s1.current_thread = s2.current_thread)
    (hst : s1.threads.map uthread.state = s2.threads.map uthread.state)
    (hln : links s1.threads = links s2.threads) :
    (∀ fuel : Nat,
      (uthread_yield fuel s1).map (fun r => (r.2, r.1.current_thread))
        = (uthread_yield fuel s2).map (fun r => (r.2, r.1.current_thread))) ∧
    (∀ c : Nat, s1.threads.length = MAX_UTHREADS → ring_links MAX_UTHREADS s1.threads →
      s1.current_thread = some c → c < MAX_UTHREADS →
      ∃ n : Nat, n < MAX_UTHREADS ∧ ∀ fuel : Nat, MAX_UTHREADS ≤ fuel →
        (uthread_yield fuel s1).map (fun r => (r.2, r.1.current_thread))
          = some ({ old_context := c, new_context := n }, some n) ∧
        (uthread_yield fuel s2).map (fun r => (r.2, r.1.current_thread))
          = some ({ old_context := c, new_context := n }, some n)) := by
  have hsame := uthread_yield_congr s1 s2 hcur (sched_view_of_maps _ _ hst hln)
  refine ⟨hsame, ?_⟩
  intro c hlen hring hc hcN
  obtain ⟨n, hn, _, hy⟩ := uthread_yield_shape MAX_UTHREADS s1 c hlen hring hc hcN
  refine ⟨n, hn, ?_⟩
  intro fuel hfuel
  have h1 : (uthread_yield fuel s1).map (fun r => (r.2, r.1.current_thread))
      = some ({ old_context := c, new_context := n }, some n) := by
    rw [hy fuel hfuel]
    rfl
  exact ⟨h1, by rw [← hsame fuel]; exact h1⟩

/-- The statement of C19 for a table of four slots with two threads and the
same table with the two priorities exchanged. -/
theorem yield_ignores_priority_witness :
    (∀ fuel : Nat,
      (uthread_yield fuel sample_two_of_four).map (fun r => (r.2, r.1.current_thread))
        = (uthread_yield fuel sample_two_of_four_swapped).map (fun r => (r.2, r.1.current_thread))) ∧
    (∀ c : Nat, sample_two_of_four.threads.length = 4 → ring_links 4 sample_two_of_four.threads →
      sample_two_of_four.current_thread = some c → c < 4 →
      ∃ n : Nat, n < 4 ∧ ∀ fuel : Nat, 4 ≤ fuel →
        (uthread_yield fuel sample_two_of_four).map (fun r => (r.2, r.1.current_thread))
          = some ({ old_context := c, new_context := n }, some n) ∧
        (uthread_yield fuel sample_two_of_four_swapped).map (fun r => (r.2, r.1.current_thread))
          = some ({ old_context := c, new_context := n }, some n)) :=
  yield_ignores_priority 4 sample_two_of_four sample_two_of_four_swapped rfl rfl rfl

/-! ## Round robin -/

theorem set_slot_same (ts : List uthread) (i : Nat) (f : uthread → uthread) (t : uthread)
    (hget : ts[i]? = some t) (hf : f t = t) : set_slot ts i f = ts := by
  induction ts generalizing i with
  | nil => rfl
  | cons u ts ih =>
    cases i with
    | zero =>
      simp only [List.getElem?_cons_zero, Option.some.injEq] at hget
      subst hget
      simp [set_slot, hf]
    | succ i =>
      simp only [List.getElem?_cons_succ] at hget
      simp [set_slot, ih i hget]

theorem set_slot_states (ts : List uthread) (i : Nat) (f : uthread → uthread)
    (hf : ∀ t, (f t).state = t.state) :
    (set_slot ts i f).map uthread.state = ts.map uthread.state := by
  induction ts generalizing i with
  | nil => rfl
  | cons t ts ih =>
    cases i with
    | zero => simp [set_slot, hf]
    | succ i => simp [set_slot, ih i]

theorem is_runnable_iff (ts : List uthread) (i : Nat) :
    is_runnable ts i = true ↔ ∃ t : uthread, ts[i]? = some t ∧ t.state = tstate.RUNNABLE := by
  unfold is_runnable
  cases h : ts[i]? with
  | none => simp
  | some t => simp

theorem is_runnable_false_iff (ts : List uthread) (i : Nat) :
    is_runnable ts i = false ↔
      ∀ t : uthread, ts[i]? = some t → t.state ≠ tstate.RUNNABLE := by
  unfold is_runnable
  cases h : ts[i]? with
  | none => simp
  | some t => simp

theorem is_runnable_congr (ts1 ts2 : List uthread)
    (h : ts1.map uthread.state = ts2.map uthread.state) (i : Nat) :
    is_runnable ts1 i = is_runnable ts2 i := by
  have hi : (ts1[i]?).map uthread.state = (ts2[i]?).map uthread.state := by
    rw [← List.getElem?_map, ← List.getElem?_map, h]
  unfold is_runnable
  cases e1 : ts1[i]? with
  | none =>
    cases e2 : ts2[i]? with
    | none => rfl
    | some u => rw [e1, e2] at hi; exact Option.noConfusion hi
  | some t =>
    cases e2 : ts2[i]? with
    | none => rw [e1, e2] at hi; exact Option.noConfusion hi
    | some u =>
      rw [e1, e2] at hi
      simp only [Option.map_some', Option.some.injEq] at hi
      simp [hi]

/-- A yield by a RUNNABLE current slot `c` on the ring: the table is left as it
is, and the slot selected is the first RUNNABLE one after `c` in ring order. -/
theorem yield_from_runnable (MAX_UTHREADS : Nat) (s : State) (c : Nat)
    (hlen : s.threads.length = MAX_UTHREADS) (hring : ring_links MAX_UTHREADS s.threads)
    (hcur : s.current_thread = some c) (hc : c < MAX_UTHREADS)
    (hrun : is_runnable s.threads c = true) :
    ∃ d : Nat, 1 ≤ d ∧ d ≤ MAX_UTHREADS ∧
      is_runnable s.threads ((c + d) % MAX_UTHREADS) = true ∧
      (∀ e : Nat, 1 ≤ e → e < d → is_runnable s.threads ((c + e) % MAX_UTHREADS) = false) ∧
      (∀ fuel : Nat, MAX_UTHREADS ≤ fuel →
        uthread_yield fuel s
          = some ({ threads := s.threads, current_thread := some ((c + d) % MAX_UTHREADS) },
                  { old_context := c, new_context := (c + d) % MAX_UTHREADS })) := by
  obtain ⟨cur, hcurget, hcst⟩ := (is_runnable_iff s.threads c).mp hrun
  obtain ⟨d, hd1, hdN, hdrun, hmin, hloop⟩ :=
    yield_search MAX_UTHREADS s.threads c hlen hring hc ⟨cur, hcurget, hcst⟩
  have hmark : set_slot s.threads c (fun t => { t with state := tstate.RUNNABLE }) = s.threads :=
    set_slot_same s.threads c _ cur hcurget (by
      cases cur
      simp only at hcst
      subst hcst
      rfl)
  have hnext : cur.next_thread = some ((c + 1) % MAX_UTHREADS) := hring c cur hcurget
  refine ⟨d, hd1, hdN, (is_runnable_iff _ _).mpr hdrun, ?_, ?_⟩
  · intro e he1 he2
    exact (is_runnable_false_iff _ _).mpr (fun t ht => hmin e t he1 he2 ht)
  · intro fuel hfuel
    simp [uthread_yield, uthread_self, hcur, hcurget, hnext, hmark, hloop fuel hfuel]

theorem ring_window_shift (MAX_UTHREADS c d e : Nat) :
    (c + 1 + (d + e)) % MAX_UTHREADS = ((c + d) % MAX_UTHREADS + 1 + e) % MAX_UTHREADS := by
  have h1 : c + 1 + (d + e) = c + d + (1 + e) := by omega
  have h2 : (c + d) % MAX_UTHREADS + 1 + e = (c + d) % MAX_UTHREADS + (1 + e) := by omega
  rw [h1, h2, Nat.mod_add_mod]

/-- When the first RUNNABLE slot after `c` lies at distance `d`, the RUNNABLE
slots among the `D` slots after `c` are that slot followed by the RUNNABLE
slots among the `D - d` slots after it. -/
theorem runnable_window_cons (MAX_UTHREADS : Nat) (ts : List uthread) (c d D : Nat)
    (hd1 : 1 ≤ d) (hdD : d ≤ D)
    (hskip : ∀ e : Nat, 1 ≤ e → e < d → is_runnable ts ((c + e) % MAX_UTHREADS) = false)
    (hrun : is_runnable ts ((c + d) % MAX_UTHREADS) = true) :
    runnable_window MAX_UTHREADS ts c D
      = (c + d) % MAX_UTHREADS ::
          runnable_window MAX_UTHREADS ts ((c + d) % MAX_UTHREADS) (D - d) := by
  obtain ⟨d0, rfl⟩ : ∃ d0, d = d0 + 1 := ⟨d - 1, by omega⟩
  obtain ⟨m, rfl⟩ : ∃ m, D = d0 + 1 + m := ⟨D - (d0 + 1), by omega⟩
  have hm : d0 + 1 + m - (d0 + 1) = m := by omega
  rw [hm]
  unfold runnable_window ring_window
  rw [List.range_add, List.range_succ]
  simp only [List.map_append, List.filter_append, List.map_cons, List.map_nil, List.map_map]
  have hfirst : List.filter (is_runnable ts)
      (List.map (fun x => (c + 1 + x) % MAX_UTHREADS) (List.range d0)) = [] := by
    rw [List.filter_eq_nil_iff]
    intro x hx
    obtain ⟨e, he, rfl⟩ := List.mem_map.mp hx
    have he' : e < d0 := List.mem_range.mp he
    have := hskip (e + 1) (by omega) (by omega)
    have harg : c + (e + 1) = c + 1 + e := by omega
    rw [harg] at this
    simp [this]
  have hmid : (c + 1 + d0) % MAX_UTHREADS = (c + (d0 + 1)) % MAX_UTHREADS := by
    congr 1
    omega
  have hlast : List.map ((fun x => (c + 1 + x) % MAX_UTHREADS) ∘ fun x => d0 + 1 + x)
      (List.range m)
      = List.map (fun x => ((c + (d0 + 1)) % MAX_UTHREADS + 1 + x) % MAX_UTHREADS)
          (List.range m) := by
    apply List.map_congr_left
    intro e _
    exact ring_window_shift MAX_UTHREADS c (d0 + 1) e
  rw [hfirst, hmid, hlast]
  simp [hrun]

/-- A run of yields on the ring, started by a RUNNABLE current slot `c`, that
is as long as the number of RUNNABLE slots among the `D` slots after `c`, the
last of them RUNNABLE: the slots selected are exactly those RUNNABLE slots in
ring order, the last slot becomes current, and states and links are kept. -/
theorem yield_trace_window (MAX_UTHREADS fuel : Nat) (hfuel : MAX_UTHREADS ≤ fuel) :
    ∀ (lives : List context) (s : State) (c D : Nat),
      s.threads.length = MAX_UTHREADS → ring_links MAX_UTHREADS s.threads →
      s.current_thread = some c → c < MAX_UTHREADS →
      is_runnable s.threads c = true →
      is_runnable s.threads ((c + D) % MAX_UTHREADS) = true →
      lives.length = (runnable_window MAX_UTHREADS s.threads c D).length →
      ∃ s1 : State,
        yield_trace fuel lives s = some (s1, runnable_window MAX_UTHREADS s.threads c D) ∧
        s1.current_thread = some ((c + D) % MAX_UTHREADS) ∧
        s1.threads.map uthread.state = s.threads.map uthread.state ∧
        links s1.threads = links s.threads ∧
        s1.threads.length = MAX_UTHREADS ∧
        ring_links MAX_UTHREADS s1.threads := by
  intro lives
  induction lives with
  | nil =>
    intro s c D hlen hring hcur hc _ hlast hcount
    have hnil : runnable_window MAX_UTHREADS s.threads c D = [] :=
      List.length_eq_zero.mp hcount.symm
    have hD : D = 0 := by
      by_contra hne
      have hmem : (c + D) % MAX_UTHREADS ∈ runnable_window MAX_UTHREADS s.threads c D := by
        unfold runnable_window ring_window
        rw [List.mem_filter]
        refine ⟨List.mem_map.mpr ⟨D - 1, List.mem_range.mpr (by omega), ?_⟩, hlast⟩
        congr 1
        omega
      rw [hnil] at hmem
      exact List.not_mem_nil _ hmem
    subst hD
    refine ⟨s, ?_, ?_, rfl, rfl, hlen, hring⟩
    · rw [hnil]
      rfl
    · rw [hcur, Nat.add_zero, Nat.mod_eq_of_lt hc]
  | cons live rest ih =>
    intro s c D hlen hring hcur hc hrun hlast hcount
    obtain ⟨d, hd1, _, hdrun, hskip, hy⟩ :=
      yield_from_runnable MAX_UTHREADS s c hlen hring hcur hc hrun
    have hdD : d ≤ D := by
      have hne : runnable_window MAX_UTHREADS s.threads c D ≠ [] := by
        intro h
        rw [h] at hcount
        simp at hcount
      obtain ⟨x, hx⟩ := List.exists_mem_of_ne_nil _ hne
      unfold runnable_window ring_window at hx
      rw [List.mem_filter] at hx
      obtain ⟨e, he, rfl⟩ := List.mem_map.mp hx.1
      have heD : e < D := List.mem_range.mp he
      by_contra hgt
      have hfalse := hskip (e + 1) (by omega) (by omega)
      have harg : c + (e + 1) = c + 1 + e := by omega
      rw [harg, hx.2] at hfalse
      exact Bool.noConfusion hfalse
    have hcons := runnable_window_cons MAX_UTHREADS s.threads c d D hd1 hdD hskip hdrun
    have hpos : 0 < MAX_UTHREADS := by omega
    have hstates : (set_slot s.threads c (fun t => { t with context := live })).map uthread.state
        = s.threads.map uthread.state := set_slot_states _ _ _ (fun _ => rfl)
    have hfun : is_runnable (set_slot s.threads c (fun t => { t with context := live }))
        = is_runnable s.threads := funext (is_runnable_congr _ _ hstates)
    have hwin : ∀ a b : Nat,
        runnable_window MAX_UTHREADS (set_slot s.threads c (fun t => { t with context := live })) a b
          = runnable_window MAX_UTHREADS s.threads a b := by
      intro a b
      unfold runnable_window
      rw [hfun]
    have hend : ((c + d) % MAX_UTHREADS + (D - d)) % MAX_UTHREADS = (c + D) % MAX_UTHREADS := by
      rw [Nat.mod_add_mod]
      congr 1
      omega
    obtain ⟨s1, ht, hc1, hs1, hl1, hlen1, hring1⟩ := ih
      { threads := set_slot s.threads c (fun t => { t with context := live }),
        current_thread := some ((c + d) % MAX_UTHREADS) }
      ((c + d) % MAX_UTHREADS) (D - d)
      (by simp only [set_slot_length]; exact hlen)
      (ring_links_mark MAX_UTHREADS s.threads c _ (fun _ => rfl) hring)
      rfl (Nat.mod_lt _ hpos)
      (by simp only [hfun]; exact hdrun)
      (by simp only [hfun, hend]; exact hlast)
      (by
        simp only [hwin]
        rw [hcons] at hcount
        simp only [List.length_cons] at hcount
        omega)
    simp only [hwin] at ht
    refine ⟨s1, ?_, ?_, ?_, ?_, hlen1, hring1⟩
    · simp only [yield_trace, hy fuel hfuel, uswtch, ht, hcons]
    · rw [hc1, hend]
    · rw [hs1, hstates]
    · rw [hl1]
      exact set_slot_links _ _ _ (fun _ => rfl)

theorem ring_window_nodup (MAX_UTHREADS c : Nat) :
    (ring_window MAX_UTHREADS c MAX_UTHREADS).Nodup := by
  unfold ring_window
  apply List.Nodup.map_on _ (List.nodup_range MAX_UTHREADS)
  intro x hx y hy h
  exact mod_add_cancel MAX_UTHREADS (c + 1) x y (List.mem_range.mp hx) (List.mem_range.mp hy) h

theorem ring_window_mem (MAX_UTHREADS c a : Nat) :
    a ∈ ring_window MAX_UTHREADS c MAX_UTHREADS ↔ a < MAX_UTHREADS := by
  unfold ring_window
  rw [List.mem_map]
  constructor
  · rintro ⟨d, hd, rfl⟩
    have : d < MAX_UTHREADS := List.mem_range.mp hd
    exact Nat.mod_lt _ (by omega)
  · intro ha
    have hpos : 0 < MAX_UTHREADS := by omega
    have hr : (c + 1) % MAX_UTHREADS < MAX_UTHREADS := Nat.mod_lt _ hpos
    by_cases hge : (c + 1) % MAX_UTHREADS ≤ a
    · refine ⟨a - (c + 1) % MAX_UTHREADS, List.mem_range.mpr (by omega), ?_⟩
      rw [← Nat.mod_add_mod]
      have : (c + 1) % MAX_UTHREADS + (a - (c + 1) % MAX_UTHREADS) = a := by omega
      rw [this, Nat.mod_eq_of_lt ha]
    · refine ⟨a + MAX_UTHREADS - (c + 1) % MAX_UTHREADS, List.mem_range.mpr (by omega), ?_⟩
      rw [← Nat.mod_add_mod]
      have : (c + 1) % MAX_UTHREADS + (a + MAX_UTHREADS - (c + 1) % MAX_UTHREADS)
          = a + MAX_UTHREADS := by omega
      rw [this, mod_self_add a _ ha]

/-- One full turn of the ring after `c` visits every slot exactly once. -/
theorem ring_window_perm (MAX_UTHREADS c : Nat) :
    (ring_window MAX_UTHREADS c MAX_UTHREADS).Perm (List.range MAX_UTHREADS) := by
  rw [List.perm_ext_iff_of_nodup (ring_window_nodup MAX_UTHREADS c)
    (List.nodup_range MAX_UTHREADS)]
  intro a
  rw [ring_window_mem, List.mem_range]

theorem runnable_after_perm (MAX_UTHREADS : Nat) (ts : List uthread) (c : Nat) :
    (runnable_after MAX_UTHREADS ts c).Perm (runnable_slots MAX_UTHREADS ts) :=
  List.Perm.filter _ (ring_window_perm MAX_UTHREADS c)

theorem runnable_after_nodup (MAX_UTHREADS : Nat) (ts : List uthread) (c : Nat) :
    (runnable_after MAX_UTHREADS ts c).Nodup :=
  List.Nodup.filter _ (ring_window_nodup MAX_UTHREADS c)

theorem runnable_after_mem (MAX_UTHREADS : Nat) (ts : List uthread) (c i : Nat) :
    i ∈ runnable_after MAX_UTHREADS ts c ↔ i < MAX_UTHREADS ∧ is_runnable ts i = true := by
  unfold runnable_after runnable_window
  rw [List.mem_filter, ring_window_mem]

/-- One round: as many yields as there are RUNNABLE slots, started by a
RUNNABLE current slot `c` on the ring. -/
theorem yield_round (MAX_UTHREADS fuel : Nat) (hfuel : MAX_UTHREADS ≤ fuel)
    (lives : List context) (s : State) (c : Nat)
    (hlen : s.threads.length = MAX_UTHREADS) (hring : ring_links MAX_UTHREADS s.threads)
    (hcur : s.current_thread = some c) (hc : c < MAX_UTHREADS)
    (hrun : is_runnable s.threads c = true)
    (hk : lives.length = (runnable_slots MAX_UTHREADS s.threads).length) :
    ∃ s1 : State,
      yield_trace fuel lives s = some (s1, runnable_after MAX_UTHREADS s.threads c) ∧
      s1.current_thread = some c ∧
      s1.threads.map uthread.state = s.threads.map uthread.state ∧
      links s1.threads = links s.threads ∧
      s1.threads.length = MAX_UTHREADS ∧
      ring_links MAX_UTHREADS s1.threads := by
  have hend : (c + MAX_UTHREADS) % MAX_UTHREADS = c := mod_self_add c _ hc
  obtain ⟨s1, h1, h2, h3, h4, h5, h6⟩ := yield_trace_window MAX_UTHREADS fuel hfuel lives s c
    MAX_UTHREADS hlen hring hcur hc hrun (by rw [hend]; exact hrun)
    (by
      rw [hk]
      exact ((runnable_after_perm MAX_UTHREADS s.threads c).length_eq).symm)
  rw [hend] at h2
  exact ⟨s1, h1, h2, h3, h4, h5, h6⟩

theorem yield_trace_append (fuel : Nat) (l1 l2 : List context) :
    ∀ s : State,
      yield_trace fuel (l1 ++ l2) s
        = match yield_trace fuel l1 s with
          | none => none
          | some (s1, sel1) =>
            match yield_trace fuel l2 s1 with
            | none => none
            | some (s2, sel2) => some (s2, sel1 ++ sel2) := by
  induction l1 with
  | nil =>
    intro s
    simp only [List.nil_append, yield_trace]
    cases yield_trace fuel l2 s with
    | none => rfl
    | some r => rfl
  | cons live rest ih =>
    intro s
    simp only [List.cons_append, yield_trace]
    cases hy : uthread_yield fuel s with
    | none => rfl
    | some r =>
      obtain ⟨s1, call⟩ := r
      simp only [List.append_eq]
      rw [ih]
      cases yield_trace fuel rest (uswtch live call s1) with
      | none => rfl
      | some q =>
        obtain ⟨s2, sel⟩ := q
        simp only
        cases yield_trace fuel l2 s2 with
        | none => rfl
        | some q2 => rfl

/-- `m` rounds: over `m` times as many yields as there are RUNNABLE slots,
every slot is selected `m` times as often as it occurs in one turn of the
ring. -/
theorem yield_rounds (MAX_UTHREADS fuel : Nat) (hfuel : MAX_UTHREADS ≤ fuel) :
    ∀ (m : Nat) (lives : List context) (s : State) (c : Nat),
      s.threads.length = MAX_UTHREADS → ring_links MAX_UTHREADS s.threads →
      s.current_thread = some c → c < MAX_UTHREADS →
      is_runnable s.threads c = true →
      lives.length = m * (runnable_slots MAX_UTHREADS s.threads).length →
      ∃ (s1 : State) (selected : List Nat),
        yield_trace fuel lives s = some (s1, selected) ∧
        s1.current_thread = some c ∧
        ∀ i : Nat, selected.count i = m * (runnable_after MAX_UTHREADS s.threads c).count i := by
  intro m
  induction m with
  | zero =>
    intro lives s c _ _ hcur _ _ hk
    have hnil : lives = [] := List.length_eq_zero.mp (by simpa using hk)
    subst hnil
    exact ⟨s, [], rfl, hcur, fun i => by simp⟩
  | succ m ih =>
    intro lives s c hlen hring hcur hc hrun hk
    have hsplit : lives = lives.take (runnable_slots MAX_UTHREADS s.threads).length
        ++ lives.drop (runnable_slots MAX_UTHREADS s.threads).length :=
      (List.take_append_drop _ _).symm
    have hle : (runnable_slots MAX_UTHREADS s.threads).length ≤ lives.length := by
      rw [hk, Nat.succ_mul]
      omega
    have htake : (lives.take (runnable_slots MAX_UTHREADS s.threads).length).length
        = (runnable_slots MAX_UTHREADS s.threads).length := by
      rw [List.length_take]
      omega
    have hdrop : (lives.drop (runnable_slots MAX_UTHREADS s.threads).length).length
        = m * (runnable_slots MAX_UTHREADS s.threads).length := by
      rw [List.length_drop, hk, Nat.succ_mul]
      omega
    obtain ⟨s1, ht1, hc1, hs1, _, hlen1, hring1⟩ :=
      yield_round MAX_UTHREADS fuel hfuel _ s c hlen hring hcur hc hrun htake
    have hfun : is_runnable s1.threads = is_runnable s.threads :=
      funext (is_runnable_congr _ _ hs1)
    have hslots : runnable_slots MAX_UTHREADS s1.threads = runnable_slots MAX_UTHREADS s.threads := by
      unfold runnable_slots
      rw [hfun]
    have hafter : runnable_after MAX_UTHREADS s1.threads c
        = runnable_after MAX_UTHREADS s.threads c := by
      unfold runnable_after runnable_window
      rw [hfun]
    obtain ⟨s2, sel2, ht2, hc2, hcount2⟩ := ih _ s1 c hlen1 hring1 hc1 hc
      (by rw [hfun]; exact hrun) (by rw [hslots]; exact hdrop)
    refine ⟨s2, runnable_after MAX_UTHREADS s.threads c ++ sel2, ?_, hc2, ?_⟩
    · rw [hsplit, yield_trace_append, ht1]
      simp only [ht2]
    · intro i
      rw [List.count_append, hcount2 i, hafter, Nat.succ_mul]
      omega

theorem create_all_two (MAX_UTHREADS STACK_SIZE : Nat) (a b : Nat × sched_priority) (s : State) :
    (create_all MAX_UTHREADS STACK_SIZE [a, b] s).1
      = (uthread_create MAX_UTHREADS STACK_SIZE b.1 b.2
          (uthread_create MAX_UTHREADS STACK_SIZE a.1 a.2 s).1).1 :=
  rfl

theorem sample_two_of_four_ring : ring_links 4 sample_two_of_four.threads := by
  show ring_links 4 (create_all 4 4000 sample_args (init_uthreads 4 (zeroed_State 8192 4096 4))).1.threads
  unfold sample_args
  rw [create_all_two]
  exact ring_links_create 4 4000 _ _ _ (ring_links_create 4 4000 _ _ _
    (ring_links_init 4 (zeroed_State 8192 4096 4) (by decide)))

theorem sample_two_of_two_ring : ring_links 2 sample_two_of_two.threads := by
  show ring_links 2 (create_all 2 4000 sample_args (init_uthreads 2 (zeroed_State 8192 4096 2))).1.threads
  unfold sample_args
  rw [create_all_two]
  exact ring_links_create 2 4000 _ _ _ (ring_links_create 2 4000 _ _ _
    (ring_links_init 2 (zeroed_State 8192 4096 2) (by decide)))

/-- C20: round robin. On the ring, with a RUNNABLE current slot `c` and `k`
RUNNABLE slots in the table (`k` is at least 1), `k` consecutive yields, each
made by the thread just selected, select the RUNNABLE slots in ring order
starting after `c`: that list holds every RUNNABLE slot exactly once (it has no
repetition and is a rearrangement of the RUNNABLE slots of the table), and
after the `k` yields the current thread is `c` again, the slot states
unchanged. -/
theorem round_robin_fairness (MAX_UTHREADS : Nat) (s : State) (c : Nat) (lives : List context)
    (hlen : s.threads.length = MAX_UTHREADS) (hring : ring_links MAX_UTHREADS s.threads)
    (hcur : s.current_thread = some c) (hc : c < MAX_UTHREADS)
    (hrun : is_runnable s.threads c = true)
    (hk : lives.length = (runnable_slots MAX_UTHREADS s.threads).length) :
    1 ≤ lives.length ∧
    runnable_after MAX_UTHREADS s.threads c
      = ((List.range MAX_UTHREADS).map (fun d => (c + 1 + d) % MAX_UTHREADS)).filter
          (is_runnable s.threads) ∧
    (runnable_after MAX_UTHREADS s.threads c).Nodup ∧
    (runnable_after MAX_UTHREADS s.threads c).Perm (runnable_slots MAX_UTHREADS s.threads) ∧
    (∀ i : Nat, i ∈ runnable_after MAX_UTHREADS s.threads c ↔
      i < MAX_UTHREADS ∧ is_runnable s.threads i = true) ∧
    (∀ fuel : Nat, MAX_UTHREADS ≤ fuel →
      ∃ s1 : State,
        yield_trace fuel lives s = some (s1, runnable_after MAX_UTHREADS s.threads c) ∧
        s1.current_thread = some c ∧
        s1.threads.map uthread.state = s.threads.map uthread.state) := by
  refine ⟨?_, rfl, runnable_after_nodup MAX_UTHREADS s.threads c,
    runnable_after_perm MAX_UTHREADS s.threads c,
    runnable_after_mem MAX_UTHREADS s.threads c, ?_⟩
  · rw [hk]
    have hmem : c ∈ runnable_slots MAX_UTHREADS s.threads := by
      unfold runnable_slots
      rw [List.mem_filter]
      exact ⟨List.mem_range.mpr hc, hrun⟩
    exact List.length_pos_of_mem hmem
  · intro fuel hfuel
    obtain ⟨s1, h1, h2, h3, _, _, _⟩ :=
      yield_round MAX_UTHREADS fuel hfuel lives s c hlen hring hcur hc hrun hk
    exact ⟨s1, h1, h2, h3⟩

/-- The statement of C20 for a table of four slots with two RUNNABLE threads,
slot 0 current, and two yields. -/
theorem round_robin_fairness_witness :
    1 ≤ [sample_live, sample_live].length ∧
    runnable_after 4 sample_two_of_four.threads 0
      = ((List.range 4).map (fun d => (0 + 1 + d) % 4)).filter
          (is_runnable sample_two_of_four.threads) ∧
    (runnable_after 4 sample_two_of_four.threads 0).Nodup ∧
    (runnable_after 4 sample_two_of_four.threads 0).Perm
      (runnable_slots 4 sample_two_of_four.threads) ∧
    (∀ i : Nat, i ∈ runnable_after 4 sample_two_of_four.threads 0 ↔
      i < 4 ∧ is_runnable sample_two_of_four.threads i = true) ∧
    (∀ fuel : Nat, 4 ≤ fuel →
      ∃ s1 : State,
        yield_trace fuel [sample_live, sample_live] sample_two_of_four
          = some (s1, runnable_after 4 sample_two_of_four.threads 0) ∧
        s1.current_thread = some 0 ∧
        s1.threads.map uthread.state = sample_two_of_four.threads.map uthread.state) :=
  round_robin_fairness 4 sample_two_of_four 0 [sample_live, sample_live] (by decide)
    sample_two_of_four_ring rfl (by decide) rfl rfl

/-- C16, as stated, fails. In a table of two slots, slot 0 holds a thread of
priority LOW and slot 1 a thread of priority HIGH, both RUNNABLE, slot 0
current. There is no run length from which on the thread of priority HIGH is
selected more often than the other: over every even number of yields the two
are selected equally often. -/
theorem priority_does_not_raise_selection :
    ¬ ∃ L0 : Nat, ∀ L : Nat, L0 ≤ L →
      ∃ (s1 : State) (selected : List Nat),
        yield_trace 2 (List.replicate L sample_live) sample_two_of_two = some (s1, selected) ∧
        selected.count 0 < selected.count 1 := by
  rintro ⟨L0, h⟩
  obtain ⟨s1, selected, ht, hlt⟩ := h (L0 * 2) (by omega)
  obtain ⟨s2, sel2, ht2, _, hcount⟩ := yield_rounds 2 2 (Nat.le_refl _) L0
    (List.replicate (L0 * 2) sample_live) sample_two_of_two 0 (by decide)
    sample_two_of_two_ring rfl (by decide) rfl
    (by
      have hk : (runnable_slots 2 sample_two_of_two.threads).length = 2 := rfl
      rw [hk, List.length_replicate])
  rw [ht2] at ht
  cases ht
  have hafter : runnable_after 2 sample_two_of_two.threads 0 = [1, 0] := rfl
  have h0 := hcount 0
  have h1 := hcount 1
  rw [hafter] at h0 h1
  simp at h0 h1
  omega

/-- C16, amended: the scheduler ignores priorities. On the ring, with a
RUNNABLE current slot and `k` RUNNABLE slots, over `m * k` consecutive yields
every RUNNABLE slot is selected exactly `m` times and no other slot is ever
selected, whatever the priorities of the threads: a thread of higher priority
is selected exactly as often as one of lower priority. -/
theorem yield_rounds_select_equally (MAX_UTHREADS : Nat) (s : State) (c m : Nat)
    (lives : List context)
    (hlen : s.threads.length = MAX_UTHREADS) (hring : ring_links MAX_UTHREADS s.threads)
    (hcur : s.current_thread = some c) (hc : c < MAX_UTHREADS)
    (hrun : is_runnable s.threads c = true)
    (hk : lives.length = m * (runnable_slots MAX_UTHREADS s.threads).length)
    (fuel : Nat) (hfuel : MAX_UTHREADS ≤ fuel) :
      ∃ (s1 : State) (selected : List Nat),
        yield_trace fuel lives s = some (s1, selected) ∧
        s1.current_thread = some c ∧
        (∀ i : Nat, i < MAX_UTHREADS → is_runnable s.threads i = true →
          selected.count i = m) ∧
        (∀ i : Nat, ¬ (i < MAX_UTHREADS ∧ is_runnable s.threads i = true) →
          selected.count i = 0) ∧
        (∀ i j : Nat, i < MAX_UTHREADS → j < MAX_UTHREADS →
          is_runnable s.threads i = true → is_runnable s.threads j = true →
          selected.count i = selected.count j) := by
  obtain ⟨s1, selected, ht, hc1, hcount⟩ :=
    yield_rounds MAX_UTHREADS fuel hfuel m lives s c hlen hring hcur hc hrun hk
  have hone : ∀ i : Nat, i < MAX_UTHREADS → is_runnable s.threads i = true →
      selected.count i = m := by
    intro i hi hri
    have hmem := (runnable_after_mem MAX_UTHREADS s.threads c i).mpr ⟨hi, hri⟩
    rw [hcount i,
      List.count_eq_one_of_mem (runnable_after_nodup MAX_UTHREADS s.threads c) hmem,
      Nat.mul_one]
  refine ⟨s1, selected, ht, hc1, hone, ?_, ?_⟩
  · intro i hni
    have hnot : i ∉ runnable_after MAX_UTHREADS s.threads c :=
      fun hm => hni ((runnable_after_mem MAX_UTHREADS s.threads c i).mp hm)
    rw [hcount i, List.count_eq_zero_of_not_mem hnot, Nat.mul_zero]
  · intro i j hi hj hri hrj
    rw [hone i hi hri, hone j hj hrj]

/-- The amended statement of C16 for a table of four slots with two RUNNABLE
threads of priorities LOW and HIGH, slot 0 current, over three rounds. -/
theorem yield_rounds_select_equally_witness :
      ∃ (s1 : State) (selected : List Nat),
        yield_trace 4 (List.replicate 6 sample_live) sample_two_of_four
          = some (s1, selected) ∧
        s1.current_thread = some 0 ∧
        (∀ i : Nat, i < 4 → is_runnable sample_two_of_four.threads i = true →
          selected.count i = 3) ∧
        (∀ i : Nat, ¬ (i < 4 ∧ is_runnable sample_two_of_four.threads i = true) →
          selected.count i = 0) ∧
        (∀ i j : Nat, i < 4 → j < 4 →
          is_runnable sample_two_of_four.threads i = true →
          is_runnable sample_two_of_four.threads j = true →
          selected.count i = selected.count j) :=
  yield_rounds_select_equally 4 sample_two_of_four 0 3 (List.replicate 6 sample_live)
    (by decide) sample_two_of_four_ring rfl (by decide) rfl rfl 4 (by decide)

/-! ## The executing thread

Once `uthread_yield` has selected a thread, the current-thread pointer
designates a slot of the table, and it keeps doing so through every later
call. -/

theorem yield_loop_in_table (ts : List uthread) :
    ∀ (fuel : Nat) (p : Option Nat) (steps n k : Nat),
      yield_loop ts fuel p steps = some (n, k) → n < ts.length := by
  intro fuel
  induction fuel with
  | zero =>
    intro p steps n k h
    simp only [yield_loop] at h
    exact Option.noConfusion h
  | succ fuel ih =>
    intro p steps n k h
    cases p with
    | none =>
      simp only [yield_loop] at h
      exact Option.noConfusion h
    | some i =>
      cases hu : ts[i]? with
      | none =>
        simp only [yield_loop, hu] at h
        exact Option.noConfusion h
      | some t =>
        by_cases hst : t.state = tstate.RUNNABLE
        · simp only [yield_loop, hu, hst, ne_eq, not_true_eq_false, if_false,
            Option.some.injEq, Prod.mk.injEq] at h
          rw [← h.1]
          exact lt_of_slot ts i t hu
        · simp only [yield_loop, hu, ne_eq, hst, not_false_eq_true, if_true] at h
          exact ih _ _ n k h

theorem yield_current_in_table (fuel : Nat) (s : State) (r : State × swap_call)
    (hy : uthread_yield fuel s = some r) : current_in_table r.1 := by
  unfold uthread_yield at hy
  split at hy
  · exact Option.noConfusion hy
  · split at hy
    · exact Option.noConfusion hy
    · dsimp only at hy
      split at hy
      · exact Option.noConfusion hy
      · rename_i n k hloop
        cases hy
        exact ⟨n, rfl, yield_loop_in_table _ _ _ _ n k hloop⟩

theorem uswtch_current_in_table (live : context) (call : swap_call) (s : State)
    (h : current_in_table s) : current_in_table (uswtch live call s) := by
  obtain ⟨c, hc, hlt⟩ := h
  exact ⟨c, hc, by simp only [uswtch, set_slot_length]; exact hlt⟩

theorem exit_resume_current_in_table (MAX_UTHREADS : Nat) (s : State)
    (r : State × exit_outcome) (h : current_in_table s)
    (hr : uthread_exit_resume MAX_UTHREADS s = some r) : current_in_table r.1 := by
  obtain ⟨c, hc, hlt⟩ := h
  unfold uthread_exit_resume at hr
  split at hr
  · exact Option.noConfusion hr
  · split at hr
    · exact Option.noConfusion hr
    · dsimp only at hr
      split at hr
      · cases hr
        exact ⟨c, hc, by simp only [set_slot_length]; exact hlt⟩
      · cases hr
        exact ⟨c, hc, by simp only [set_slot_length]; exact hlt⟩

theorem exit_current_in_table (MAX_UTHREADS fuel : Nat) (live : context) (s : State) :
    (∀ (m : State) (call : swap_call),
      uthread_exit MAX_UTHREADS fuel live s = some (exit_result.switched m call) →
      current_in_table m) ∧
    (∀ (m : State) (o : exit_outcome),
      uthread_exit MAX_UTHREADS fuel live s = some (exit_result.finished m o) →
      current_in_table m) := by
  constructor
  · intro m call he
    unfold uthread_exit at he
    split at he
    · exact Option.noConfusion he
    · rename_i s1 call1 hy
      have h2 := uswtch_current_in_table live call1 s1
        (yield_current_in_table fuel s (s1, call1) hy)
      simp only at he
      split at he
      · split at he
        · exact Option.noConfusion he
        · cases he
      · cases he
        exact h2
  · intro m o he
    unfold uthread_exit at he
    split at he
    · exact Option.noConfusion he
    · rename_i s1 call1 hy
      have h2 := uswtch_current_in_table live call1 s1
        (yield_current_in_table fuel s (s1, call1) hy)
      simp only at he
      split at he
      · split at he
        · exact Option.noConfusion he
        · rename_i s3 o3 hr
          cases he
          exact exit_resume_current_in_table MAX_UTHREADS _ (m, o) h2 hr
      · cases he

theorem after_switch_current_in_table (MAX_UTHREADS : Nat) (sys sys1 : System)
    (call : swap_call) (h : current_in_table sys.mem)
    (ha : after_switch MAX_UTHREADS sys call = some sys1) : current_in_table sys1.mem := by
  unfold after_switch at ha
  split at ha
  · split at ha
    · exact Option.noConfusion ha
    · rename_i m o hr
      cases ha
      exact exit_resume_current_in_table MAX_UTHREADS sys.mem (m, o) h hr
  · cases ha
    exact h

/-- A yield, made directly or inside `uthread_exit` by a running process,
leaves the current-thread pointer on a slot of the table. -/
theorem step_yield_current_in_table (MAX_UTHREADS STACK_SIZE : Nat) (sys sys1 : System)
    (op : Op) (live : context) (hop : op = Op.yield live ∨ op = Op.exit live)
    (hlive : sys.status = none)
    (hs : step MAX_UTHREADS STACK_SIZE sys op = some sys1) : current_in_table sys1.mem := by
  unfold step at hs
  split at hs
  · rename_i hne
    exact absurd hlive hne
  · rcases hop with rfl | rfl
    · simp only at hs
      split at hs
      · exact Option.noConfusion hs
      · rename_i m call hy
        exact after_switch_current_in_table MAX_UTHREADS _ sys1 call
          (uswtch_current_in_table live call m
            (yield_current_in_table MAX_UTHREADS sys.mem (m, call) hy)) hs
    · simp only at hs
      have hex := exit_current_in_table MAX_UTHREADS MAX_UTHREADS live sys.mem
      split at hs
      · exact Option.noConfusion hs
      · rename_i m o he
        cases hs
        exact hex.2 m o he
      · rename_i m call he
        exact after_switch_current_in_table MAX_UTHREADS _ sys1 call (hex.1 m call he) hs

theorem step_current_in_table (MAX_UTHREADS STACK_SIZE : Nat) (sys sys1 : System) (op : Op)
    (h : current_in_table sys.mem)
    (hs : step MAX_UTHREADS STACK_SIZE sys op = some sys1) : current_in_table sys1.mem := by
  by_cases hlive : sys.status = none
  · cases op with
    | create start_func priority =>
      simp only [step, hlive, ne_eq, not_true_eq_false, if_false, Option.some.injEq] at hs
      subst hs
      obtain ⟨c, hc, hlt⟩ := h
      exact ⟨c, hc, by rw [create_length]; exact hlt⟩
    | yield live =>
      exact step_yield_current_in_table MAX_UTHREADS STACK_SIZE sys sys1 _ live
        (Or.inl rfl) hlive hs
    | exit live =>
      exact step_yield_current_in_table MAX_UTHREADS STACK_SIZE sys sys1 _ live
        (Or.inr rfl) hlive hs
    | set_priority priority =>
      simp only [step, hlive, ne_eq, not_true_eq_false, if_false] at hs
      unfold uthread_set_priority at hs
      obtain ⟨c, hc, hlt⟩ := h
      split at hs
      · exact Option.noConfusion hs
      · rename_i m old hp
        split at hp
        · exact Option.noConfusion hp
        · split at hp
          · exact Option.noConfusion hp
          · cases hp
            cases hs
            exact ⟨c, hc, by simp only [set_slot_length]; exact hlt⟩
  · simp only [step, ne_eq, hlive, not_false_eq_true, if_true, Option.some.injEq] at hs
    subst hs
    exact h

theorem run_current_in_table (MAX_UTHREADS STACK_SIZE : Nat) :
    ∀ (ops : List Op) (sys sys1 : System), current_in_table sys.mem →
      run MAX_UTHREADS STACK_SIZE sys ops = some sys1 → current_in_table sys1.mem := by
  intro ops
  induction ops with
  | nil =>
    intro sys sys1 h hr
    simp only [run] at hr
    cases hr
    exact h
  | cons op ops ih =>
    intro sys sys1 h hr
    simp only [run] at hr
    split at hr
    · exact Option.noConfusion hr
    · rename_i sys2 hs
      exact ih sys2 sys1 (step_current_in_table MAX_UTHREADS STACK_SIZE sys sys2 op h hs) hr

/-- C6, amended: in every state reached after `uthread_yield` has selected a
thread, that is whenever a thread of the table is executing, no slot of the
table is RUNNING, and the current-thread pointer designates a slot of the
table, whose state is not RUNNING. The states covered are those reached from
the table of `init_uthreads` (whichever slot, if any, was made current at the
start) by any calls, then a yield made by the running process, directly or
inside `uthread_exit`, then any further calls. -/
theorem no_slot_running_while_executing (MAX_UTHREADS STACK_SIZE : Nat) (s0 : State)
    (cur : Option Nat) (ops : List Op) (op : Op) (live : context) (more : List Op)
    (sys1 sys2 sys3 : System)
    (hlen : s0.threads.length = MAX_UTHREADS)
    (h1 : run MAX_UTHREADS STACK_SIZE
      (boot { init_uthreads MAX_UTHREADS s0 with current_thread := cur }) ops = some sys1)
    (hlive : sys1.status = none)
    (hop : op = Op.yield live ∨ op = Op.exit live)
    (h2 : step MAX_UTHREADS STACK_SIZE sys1 op = some sys2)
    (h3 : run MAX_UTHREADS STACK_SIZE sys2 more = some sys3) :
    running_count sys3.mem = 0 ∧
    ∃ (c : Nat) (t : uthread),
      sys3.mem.current_thread = some c ∧ c < MAX_UTHREADS ∧
      sys3.mem.threads[c]? = some t ∧ t.state ≠ tstate.RUNNING := by
  have hno1 := run_keeps MAX_UTHREADS STACK_SIZE no_running no_running_set_slot ops _ sys1
    (init_no_running MAX_UTHREADS s0 hlen) h1
  have hno2 := step_keeps MAX_UTHREADS STACK_SIZE no_running no_running_set_slot sys1 sys2 op
    hno1 h2
  have hno3 := run_keeps MAX_UTHREADS STACK_SIZE no_running no_running_set_slot more sys2 sys3
    hno2 h3
  have hKlen : ∀ (ts : List uthread) (i : Nat) (f : uthread → uthread), library_update f →
      (fun l : List uthread => l.length = MAX_UTHREADS) ts →
      (fun l : List uthread => l.length = MAX_UTHREADS) (set_slot ts i f) := by
    intro ts i f _ h
    show (set_slot ts i f).length = MAX_UTHREADS
    rw [set_slot_length]
    exact h
  have hl1 : sys1.mem.threads.length = MAX_UTHREADS :=
    run_keeps MAX_UTHREADS STACK_SIZE _ hKlen ops _ sys1
      (by
        show (init_uthreads MAX_UTHREADS s0).threads.length = MAX_UTHREADS
        rw [init_uthreads_length]
        exact hlen) h1
  have hl2 : sys2.mem.threads.length = MAX_UTHREADS :=
    step_keeps MAX_UTHREADS STACK_SIZE _ hKlen sys1 sys2 op hl1 h2
  have hl3 : sys3.mem.threads.length = MAX_UTHREADS :=
    run_keeps MAX_UTHREADS STACK_SIZE _ hKlen more sys2 sys3 hl2 h3
  have hc2 := step_yield_current_in_table MAX_UTHREADS STACK_SIZE sys1 sys2 op live hop hlive h2
  obtain ⟨c, hc, hlt⟩ := run_current_in_table MAX_UTHREADS STACK_SIZE more sys2 sys3 hc2 h3
  obtain ⟨t, ht⟩ := slot_of_lt sys3.mem.threads c hlt
  refine ⟨?_, c, t, hc, by omega, ht, hno3 t (List.getElem?_mem ht)⟩
  simp only [running_count, List.countP_eq_zero, decide_eq_true_eq]
  exact hno3

/-- The amended statement of C6 for a table of two slots with slot 0 made
current: two creations, a yield, then an exit and two more yields. -/
theorem no_slot_running_while_executing_witness :
    ∃ sys1 sys2 sys3 : System,
      run 2 4000 (boot { init_uthreads 2 (zeroed_State 8192 4096 2) with
        current_thread := some 0 }) sample_create_ops = some sys1 ∧
      sys1.status = none ∧
      step 2 4000 sys1 (Op.yield sample_live) = some sys2 ∧
      run 2 4000 sys2 sample_later_ops = some sys3 ∧
      running_count sys3.mem = 0 ∧
      ∃ (c : Nat) (t : uthread),
        sys3.mem.current_thread = some c ∧ c < 2 ∧
        sys3.mem.threads[c]? = some t ∧ t.state ≠ tstate.RUNNING :=
  ⟨_, _, _, rfl, rfl, rfl, rfl,
    no_slot_running_while_executing 2 4000 (zeroed_State 8192 4096 2) (some 0)
      sample_create_ops (Op.yield sample_live) sample_live sample_later_ops _ _ _
      (by decide) rfl rfl (Or.inl rfl) rfl rfl⟩

end Uthread
